import Mathlib

/-!
# Verification of the cdb_rs constant-database (CDB) core

A shallow embedding of `src/storage/cdb/cdb_rs/src/cdb/mod.rs`:
the djb2-variant hash (`CDBHash`), the `Writer` (put / finalize) and the
`Reader` (`get`, `bucket_at`, `index_entry_at`, `get_kv_ref`, `copy_slice`).

Bytes are modelled as `Nat` (values < 256 where it matters), files as
`List Nat`, 32-bit machine arithmetic as `Nat` arithmetic with explicit
`% 2^32` at each point where the Rust code wraps or casts.  Rust panics
(out-of-range slice indexing and the explicit `panic!` in
`index_entry_at`) are modelled as an explicit `GetResult.panicked`
outcome / `Option.none` from the fallible read primitives.
-/

namespace Cdb

/-- `2^32`, the modulus of Rust `u32` arithmetic. -/
def U32 : Nat := 4294967296

/-- One step of `CDBHash::new`'s loop:
`h = h.wrapping_shl(5).wrapping_add(h) ^ (*b as u32)`. -/
def hashStep (h b : Nat) : Nat := Nat.xor (((h <<< 5) % U32 + h) % U32) b

/-- `CDBHash::new(bytes)`: fold `hashStep` over the key starting from 5381. -/
def cdbHash (key : List Nat) : Nat := key.foldl hashStep 5381

/-- `CDBHash::table()`: `self.0 as usize % MAIN_TABLE_SIZE` (256). -/
def hashTable (h : Nat) : Nat := h % 256

/-- `CDBHash::slot(num_ents)`: `(self.0 as usize >> 8) % num_ents`. -/
def hashSlot (h n : Nat) : Nat := (h >>> 8) % n

/-- Little-endian 4-byte encoding of a `u32` value (`put_u32_le`);
the `% U32` of a Rust `as u32` cast is absorbed by the byte extraction. -/
def u32le (n : Nat) : List Nat :=
  [n % 256, n / 256 % 256, n / 65536 % 256, n / 16777216 % 256]

/-- Byte `i` of a file (in-range accesses only are ever relied upon). -/
def byteAt (data : List Nat) (i : Nat) : Nat := data.getD i 0

/-- Little-endian `u32` read at offset `off` (`get_u32_le`). -/
def readU32 (data : List Nat) (off : Nat) : Nat :=
  byteAt data off + 256 * byteAt data (off + 1) +
    65536 * byteAt data (off + 2) + 16777216 * byteAt data (off + 3)

end Cdb

namespace Cdb

theorem U32_pos : 0 < U32 := by decide

theorem u32le_length (n : Nat) : (u32le n).length = 4 := rfl

/-- Recombining the four little-endian bytes of `n` yields `n % 2^32`. -/
theorem u32le_eval (n : Nat) :
    n % 256 + 256 * (n / 256 % 256) + 65536 * (n / 65536 % 256) +
      16777216 * (n / 16777216 % 256) = n % U32 := by
  show _ = n % 4294967296
  omega

theorem byteAt_append_left {a b : List Nat} {i : Nat} (h : i < a.length) :
    byteAt (a ++ b) i = byteAt a i := by
  simp [byteAt, List.getD, List.getElem?_append_left h]

theorem byteAt_append_right {a b : List Nat} {i : Nat} (h : a.length ≤ i) :
    byteAt (a ++ b) i = byteAt b (i - a.length) := by
  simp [byteAt, List.getD, List.getElem?_append_right h]

theorem readU32_append_left {a b : List Nat} {off : Nat} (h : off + 4 ≤ a.length) :
    readU32 (a ++ b) off = readU32 a off := by
  unfold readU32
  rw [byteAt_append_left (by omega), byteAt_append_left (by omega),
    byteAt_append_left (by omega), byteAt_append_left (by omega)]

theorem readU32_append_right {a b : List Nat} {off : Nat} (h : a.length ≤ off) :
    readU32 (a ++ b) off = readU32 b (off - a.length) := by
  unfold readU32
  rw [byteAt_append_right (by omega), byteAt_append_right (by omega),
    byteAt_append_right (by omega), byteAt_append_right (by omega)]
  have h1 : off + 1 - a.length = off - a.length + 1 := by omega
  have h2 : off + 2 - a.length = off - a.length + 2 := by omega
  have h3 : off + 3 - a.length = off - a.length + 3 := by omega
  rw [h1, h2, h3]

/-- Reading a `u32` back from its little-endian encoding. -/
theorem readU32_u32le (n : Nat) (rest : List Nat) :
    readU32 (u32le n ++ rest) 0 = n % U32 := by
  have : readU32 (u32le n ++ rest) 0 = readU32 (u32le n) 0 :=
    readU32_append_left (by simp [u32le_length])
  rw [this]
  show n % 256 + 256 * (n / 256 % 256) + 65536 * (n / 65536 % 256) +
      16777216 * (n / 16777216 % 256) = n % U32
  exact u32le_eval n

theorem readU32_u32le_pair (m n : Nat) (rest : List Nat) :
    readU32 (u32le m ++ (u32le n ++ rest)) 0 = m % U32 ∧
      readU32 (u32le m ++ (u32le n ++ rest)) 4 = n % U32 := by
  constructor
  · exact readU32_u32le m _
  · have h4 : (u32le m).length ≤ 4 := by simp [u32le_length]
    rw [readU32_append_right h4]
    simp [u32le_length]
    exact readU32_u32le n rest

end Cdb

namespace Cdb

/-- `IndexEntry { hash, ptr }` from the source; `ptr == 0` is the
empty-slot sentinel, and `IndexEntry::default()` is `(0, 0)`. -/
structure IndexEntry where
  hash : Nat
  ptr : Nat
deriving DecidableEq, Repr

instance : Inhabited IndexEntry := ⟨⟨0, 0⟩⟩

/-- `Bucket { ptr, num_ents }`: one primary-table entry. -/
structure Bucket where
  ptr : Nat
  num_ents : Nat
deriving DecidableEq, Repr

/-- Serialisation of a list of `(u32, u32)` pairs, 8 bytes per pair;
this is the layout of both the primary table and the secondary tables. -/
def serializePairs (l : List (Nat × Nat)) : List Nat :=
  l.flatMap (fun p => u32le p.1 ++ u32le p.2)

/-- `Writer::finalize`'s serialisation of one secondary table:
`put_u32_le(hash)` then `put_u32_le(ptr)` for each slot in order. -/
def serializeTable (ordered : List IndexEntry) : List Nat :=
  serializePairs (ordered.map (fun e => (e.hash, e.ptr)))

/-- The in-memory state of a `Writer`: the bytes written to the file so
far, and the 256 per-bucket lists of pending index entries. -/
structure WriterState where
  file : List Nat
  index : List (List IndexEntry)

/-- `Writer::new`: write 2048 zero bytes, initialise the 256 bucket lists
each holding one `IndexEntry::default()` (`vec![vec![default]; 256]`). -/
def writerNew : WriterState :=
  ⟨List.replicate 2048 0, List.replicate 256 [⟨0, 0⟩]⟩

/-- One record as written by `Writer::put`:
`(klen: u32le, vlen: u32le, key bytes, value bytes)`. -/
def recBytes (k v : List Nat) : List Nat :=
  u32le k.length ++ u32le v.length ++ k ++ v

/-- `Writer::put(key, value)`: append the record at the current position
(`ptr`, truncated to `u32` by `seek`), and push `(hash, ptr)` onto bucket
`hash.table()`'s list. -/
def writerPut (s : WriterState) (k v : List Nat) : WriterState :=
  let p := s.file.length % U32
  let h := cdbHash k
  { file := s.file ++ recBytes k v,
    index := s.index.set (hashTable h) (s.index.getD (hashTable h) [] ++ [⟨h, p⟩]) }

/-- The inner probe loop of `Writer::finalize`: for `i` in `0..length`,
`j = (i + slot) % length`; return the first `j` whose slot is empty. -/
def findEmpty (ord : List IndexEntry) (slot n : Nat) : Nat → Nat → Option Nat
  | _, 0 => none
  | i, fuel + 1 =>
    let j := (i + slot) % n
    if (ord.getD j default).ptr = 0 then some j
    else findEmpty ord slot n (i + 1) fuel

/-- Placement of one index entry into the in-memory slot array
(linear probing from the entry's preferred slot, no-op if no empty
slot is found, which mirrors the Rust loop simply ending). -/
def placeEntry (ord : List IndexEntry) (e : IndexEntry) : List IndexEntry :=
  match findEmpty ord (hashSlot e.hash ord.length) ord.length 0 ord.length with
  | some j => ord.set j e
  | none => ord

/-- `let length = (tbl.len() << 1) as u32` from `Writer::finalize`. -/
def tableLen (tbl : List IndexEntry) : Nat := (tbl.length <<< 1) % U32

/-- The fully placed slot array for one bucket list:
start from `vec![IndexEntry::default(); length]` and place each pending
entry in insertion order. -/
def buildTable (tbl : List IndexEntry) : List IndexEntry :=
  tbl.foldl placeEntry (List.replicate (tableLen tbl) default)

/-- The per-bucket body of `Writer::finalize`'s main loop, threading
`(file bytes so far, primary-table entries so far)`. -/
def finalizeStep (acc : List Nat × List Bucket) (tbl : List IndexEntry) :
    List Nat × List Bucket :=
  let ordered := buildTable tbl
  (acc.1 ++ serializeTable ordered,
    acc.2 ++ [⟨acc.1.length % U32, tableLen tbl⟩])

/-- `Writer::finalize`: append each bucket's secondary table at EOF in
bucket order, then overwrite bytes `[0, 2048)` with the 256 primary-table
entries `(ptr_u32le, num_ents_u32le)`. Returns the final file bytes. -/
def writerFinalize (s : WriterState) : List Nat :=
  let fin := s.index.foldl finalizeStep (s.file, [])
  serializePairs (fin.2.map (fun b => (b.ptr, b.num_ents))) ++ fin.1.drop 2048

/-- Fold a sequence of `put`s over a fresh writer. -/
def writerPuts (puts : List (List Nat × List Nat)) : WriterState :=
  puts.foldl (fun s kv => writerPut s kv.1 kv.2) writerNew

/-- The complete file produced by `Writer::new`, the given `put`s, and
`finalize` (which runs on drop). -/
def buildFile (puts : List (List Nat × List Nat)) : List Nat :=
  writerFinalize (writerPuts puts)

/-- The outcome of `Reader::get`: `Ok(Some(n))`, `Ok(None)`, or a Rust
panic (out-of-range slice / the explicit `panic!` on a main-table pos). -/
inductive GetResult where
  | found : Nat → GetResult
  | notFound : GetResult
  | panicked : GetResult
deriving DecidableEq, Repr

/-- `copy_slice(dst, src)`: copy `min(|dst|, |src|)` bytes of `src` over
the front of `dst`, returning the count and the updated destination. -/
def copy_slice (dst src : List Nat) : Nat × List Nat :=
  let n := min dst.length src.length
  (n, src.take n ++ dst.drop n)

/-- `Reader::bucket_at(idx)`: decode the primary-table entry at byte
offset `8 * idx`; `none` models the slice-out-of-range panic. -/
def bucket_at (data : List Nat) (idx : Nat) : Option Bucket :=
  if idx < 256 then
    if 8 * idx + 8 ≤ data.length then
      some ⟨readU32 data (8 * idx), readU32 data (8 * idx + 4)⟩
    else none
  else none

/-- `Reader::index_entry_at(pos)`: `panic!` if `pos` is inside the main
table, slice panic if `pos + 8` overruns the data; otherwise decode the
`(hash, ptr)` slot. -/
def index_entry_at (data : List Nat) (pos : Nat) : Option IndexEntry :=
  if pos < 2048 then none
  else if pos + 8 ≤ data.length then
    some ⟨readU32 data pos, readU32 data (pos + 4)⟩
  else none

/-- `Reader::get_kv_ref(ie)`: decode the record header at `ie.ptr` and
slice out the key and value; `none` models the slice panics when the
header or either slice overruns the data. -/
def get_kv_ref (data : List Nat) (ie : IndexEntry) : Option (List Nat × List Nat) :=
  if ie.ptr + 8 ≤ data.length then
    let ksize := readU32 data ie.ptr
    let vsize := readU32 data (ie.ptr + 4)
    let kstart := ie.ptr + 8
    let vstart := kstart + ksize
    if kstart + ksize ≤ data.length then
      if vstart + vsize ≤ data.length then
        some ((data.drop kstart).take ksize, (data.drop vstart).take vsize)
      else none
    else none
  else none

/-- The probe loop of `Reader::get`: `for x in 0..num_ents`, probing slot
`(x + slot) % num_ents` of the bucket table at `bptr`. -/
def getLoop (data key buf : List Nat) (h bptr nents slot : Nat) :
    Nat → Nat → GetResult × List Nat
  | _, 0 => (.notFound, buf)
  | x, fuel + 1 =>
    let j := (x + slot) % nents
    match index_entry_at data (bptr + 8 * j) with
    | none => (.panicked, buf)
    | some e =>
      if e.ptr = 0 then (.notFound, buf)
      else if e.hash = h then
        match get_kv_ref data e with
        | none => (.panicked, buf)
        | some kv =>
          if kv.1 = key then
            ((.found (copy_slice buf kv.2).1), (copy_slice buf kv.2).2)
          else getLoop data key buf h bptr nents slot (x + 1) fuel
      else getLoop data key buf h bptr nents slot (x + 1) fuel

/-- `Reader::get(key, buf)`: hash the key, decode its primary bucket,
return `NotFound` on an empty bucket, else run the probe loop.  The
second component is the destination buffer after the call. -/
def reader_get (data key buf : List Nat) : GetResult × List Nat :=
  let h := cdbHash key
  match bucket_at data (hashTable h) with
  | none => (.panicked, buf)
  | some bkt =>
    if bkt.num_ents = 0 then (.notFound, buf)
    else getLoop data key buf h bkt.ptr bkt.num_ents
      (hashSlot h bkt.num_ents) 0 bkt.num_ents

end Cdb

namespace Cdb

theorem U32_eq_pow : U32 = 2 ^ 32 := by decide

theorem hashStep_lt (h b : Nat) (hb : b < 256) : hashStep h b < U32 := by
  rw [U32_eq_pow]
  apply Nat.xor_lt_two_pow
  · rw [← U32_eq_pow]; exact Nat.mod_lt _ U32_pos
  · omega

theorem foldl_hashStep_lt (k : List Nat) :
    ∀ init, (∀ b ∈ k, b < 256) → init < U32 →
      k.foldl hashStep init < U32 := by
  induction k with
  | nil => intro init _ hi; simpa using hi
  | cons b rest ih =>
    intro init hk _
    simp only [List.foldl_cons]
    exact ih (hashStep init b) (fun x hx => hk x (List.mem_cons_of_mem _ hx))
      (hashStep_lt init b (hk b (List.mem_cons_self _ _)))

theorem cdbHash_lt (k : List Nat) (hk : ∀ b ∈ k, b < 256) : cdbHash k < U32 :=
  foldl_hashStep_lt k 5381 hk (by decide)

/-- The spec's wording of the hash step: `H ← ((H << 5) + H) XOR b`
with 32-bit wrap-around (`(H·32 + H) mod 2^32`, then XOR the byte). -/
def hashStepSpec (h b : Nat) : Nat := Nat.xor ((h * 32 + h) % U32) b

/-- The spec's wording of the whole hash: fold `hashStepSpec` from 5381. -/
def cdbHashSpec (key : List Nat) : Nat := key.foldl hashStepSpec 5381

theorem hashStep_eq_spec (h b : Nat) : hashStep h b = hashStepSpec h b := by
  unfold hashStep hashStepSpec
  rw [Nat.shiftLeft_eq, Nat.mod_add_mod]

theorem foldl_hashStep_eq_spec (k : List Nat) :
    ∀ init, k.foldl hashStep init = k.foldl hashStepSpec init := by
  induction k with
  | nil => intro init; rfl
  | cons b rest ih =>
    intro init
    simp only [List.foldl_cons, hashStep_eq_spec]
    exact ih _

/-- C5 counterexample: the hash of `"a"` is not `177638` as the claim
computes; `(5381·33) XOR 97 = 177604`. -/
theorem claim_C5_counterexample : cdbHash [97] ≠ 177638 := by decide

/-- C5 (amended): the hash of the empty byte string is `5381`, and the
hash of `"a"` (byte 97) is `(5381·33) XOR 97`, which equals `177604`
(not `177638`). -/
theorem claim_C5 :
    cdbHash [] = 5381 ∧ cdbHash [97] = Nat.xor (5381 * 33) 97 ∧
      Nat.xor (5381 * 33) 97 = 177604 := by decide

/-- C6: for every byte string the hash equals the spec's fold
`H ← ((H << 5) + H) XOR b` starting at 5381 computed mod `2^32`; the
primary index is `H mod 256` and, for bucket size `n > 0`, the
secondary slot is `(H >> 8) mod n = (H / 256) mod n`. -/
theorem claim_C6 :
    (∀ k : List Nat, cdbHash k = cdbHashSpec k) ∧
      (∀ h : Nat, hashTable h = h % 256) ∧
      (∀ h n : Nat, 0 < n → hashSlot h n = h / 256 % n) := by
  refine ⟨fun k => foldl_hashStep_eq_spec k 5381, fun h => rfl, fun h n _ => ?_⟩
  unfold hashSlot
  rw [Nat.shiftRight_eq_div_pow]

/-- Witness for C6 at a concrete hash and bucket size. -/
theorem claim_C6_witness :
    0 < 2 ∧ hashSlot (cdbHash [97]) 2 = cdbHash [97] / 256 % 2 :=
  ⟨by decide, claim_C6.2.2 (cdbHash [97]) 2 (by decide)⟩

end Cdb

namespace Cdb

theorem getD_set_self {α : Type} {l : List α} {i : Nat} {a d : α}
    (h : i < l.length) : (l.set i a).getD i d = a := by
  rw [List.getD_eq_getElem _ _ (by simp [h])]
  simp [List.getElem_set]

theorem getD_set_ne {α : Type} {l : List α} {i j : Nat} {a d : α}
    (h : j ≠ i) : (l.set i a).getD j d = l.getD j d := by
  simp [List.getD_eq_getD_get?, List.getElem?_set_ne (Ne.symm h)]

theorem getD_replicate_val {α : Type} {n i : Nat} {a d : α} (h : i < n) :
    (List.replicate n a).getD i d = a := by
  rw [List.getD_eq_getElem _ _ (by simp [h])]
  simp

theorem countP_set_le {α : Type} (l : List α) (p : α → Bool) (i : Nat) (a : α) :
    (l.set i a).countP p ≤ l.countP p + 1 := by
  induction l generalizing i with
  | nil => simp [List.countP]
  | cons x xs ih =>
    cases i with
    | zero => simp [List.set, List.countP_cons]; split <;> split <;> omega
    | succ n =>
      simp only [List.set, List.countP_cons]
      have := ih n
      split <;> omega

/-- If fewer than `|ord|` slots are occupied, some slot is empty. -/
theorem exists_empty_slot (ord : List IndexEntry)
    (h : ord.countP (fun x => x.ptr != 0) < ord.length) :
    ∃ j < ord.length, (ord.getD j default).ptr = 0 := by
  by_contra hno
  push_neg at hno
  have hall : ∀ a ∈ ord, (fun x : IndexEntry => x.ptr != 0) a = true := by
    intro a ha
    obtain ⟨j, hj, rfl⟩ := List.getElem_of_mem ha
    have := hno j hj
    rw [List.getD_eq_getElem _ _ hj] at this
    simpa using this
  rw [List.countP_eq_length.mpr hall] at h
  omega

/-- Every residue `j < n` is hit by some probe index `x < n`. -/
theorem exists_probe_hit (s j n : Nat) (hn : 0 < n) (hj : j < n) :
    ∃ x < n, (x + s) % n = j := by
  refine ⟨(n - s % n + j) % n, Nat.mod_lt _ hn, ?_⟩
  have hq := Nat.div_add_mod s n
  have hr : s % n < n := Nat.mod_lt _ hn
  rw [Nat.mod_add_mod]
  have h1 : n - s % n + j + s = j + n * (1 + s / n) := by
    have h2 : n * (1 + s / n) = n + n * (s / n) := by ring
    omega
  rw [h1, Nat.add_mul_mod_self_left, Nat.mod_eq_of_lt hj]

theorem findEmpty_some_spec (ord : List IndexEntry) (s n : Nat) :
    ∀ fuel i j, findEmpty ord s n i fuel = some j →
      ∃ x, i ≤ x ∧ x < i + fuel ∧ j = (x + s) % n ∧
        (ord.getD j default).ptr = 0 ∧
        ∀ y, i ≤ y → y < x → (ord.getD ((y + s) % n) default).ptr ≠ 0 := by
  intro fuel
  induction fuel with
  | zero => intro i j h; simp [findEmpty] at h
  | succ fuel ih =>
    intro i j h
    simp only [findEmpty] at h
    split at h
    · rename_i hz
      obtain rfl := Option.some.inj h
      exact ⟨i, Nat.le_refl i, by omega, rfl, hz, fun y hy1 hy2 => by omega⟩
    · rename_i hnz
      obtain ⟨x, hx1, hx2, hx3, hx4, hx5⟩ := ih (i + 1) j h
      exact ⟨x, by omega, by omega, hx3, hx4, fun y hy1 hy2 => by
        rcases Nat.eq_or_lt_of_le hy1 with rfl | hlt
        · exact hnz
        · exact hx5 y hlt hy2⟩

theorem findEmpty_none_spec (ord : List IndexEntry) (s n : Nat) :
    ∀ fuel i, findEmpty ord s n i fuel = none →
      ∀ x, i ≤ x → x < i + fuel → (ord.getD ((x + s) % n) default).ptr ≠ 0 := by
  intro fuel
  induction fuel with
  | zero => intro i _ x _ _; omega
  | succ fuel ih =>
    intro i h x hx1 hx2
    simp only [findEmpty] at h
    split at h
    · exact absurd h (by simp)
    · rename_i hnz
      rcases Nat.eq_or_lt_of_le hx1 with rfl | hlt
      · exact hnz
      · exact ih (i + 1) h x hlt (by omega)

theorem findEmpty_success (ord : List IndexEntry) (s n : Nat) (hn : 0 < n)
    (hex : ∃ j < n, (ord.getD j default).ptr = 0) :
    ∃ j, findEmpty ord s n 0 n = some j := by
  cases hfe : findEmpty ord s n 0 n with
  | some j => exact ⟨j, rfl⟩
  | none =>
    obtain ⟨j, hj, hjz⟩ := hex
    obtain ⟨x, hx, hhit⟩ := exists_probe_hit s j n hn hj
    have := findEmpty_none_spec ord s n n 0 hfe x (Nat.zero_le _) (by omega)
    rw [hhit] at this
    exact absurd hjz this

end Cdb

namespace Cdb

/-- An entry is reachable in a slot array: it sits at probe distance `d`
from its preferred slot and every earlier probe position is occupied. -/
def Reach (ord : List IndexEntry) (e : IndexEntry) : Prop :=
  ∃ d < ord.length,
    ord.getD ((d + hashSlot e.hash ord.length) % ord.length) default = e ∧
    ∀ d2 < d,
      (ord.getD ((d2 + hashSlot e.hash ord.length) % ord.length) default).ptr ≠ 0

/-- Number of occupied (non-sentinel) slots. -/
def nzCount (ord : List IndexEntry) : Nat :=
  ord.countP (fun x => x.ptr != 0)

theorem placeEntry_length (ord : List IndexEntry) (e : IndexEntry) :
    (placeEntry ord e).length = ord.length := by
  unfold placeEntry
  split <;> simp

theorem placeEntry_preserve_nonzero (ord : List IndexEntry) (e : IndexEntry)
    (j : Nat) (hj : (ord.getD j default).ptr ≠ 0) :
    (placeEntry ord e).getD j default = ord.getD j default := by
  unfold placeEntry
  split
  · rename_i j0 hfe
    obtain ⟨x, _, _, _, hz, _⟩ := findEmpty_some_spec ord _ _ _ _ _ hfe
    have hne : j ≠ j0 := fun hcontra => hj (hcontra ▸ hz)
    exact getD_set_ne hne
  · rfl

theorem placeEntry_new_or_old (ord : List IndexEntry) (e : IndexEntry) (j : Nat) :
    (placeEntry ord e).getD j default = ord.getD j default ∨
      (placeEntry ord e).getD j default = e := by
  unfold placeEntry
  split
  · rename_i j0 hfe
    by_cases hje : j = j0
    · subst hje
      by_cases hjlen : j < ord.length
      · exact Or.inr (getD_set_self hjlen)
      · left
        rw [List.getD_eq_default, List.getD_eq_default]
        · omega
        · simpa using (by omega : ¬ j < ord.length)
    · exact Or.inl (getD_set_ne hje)
  · exact Or.inl rfl

theorem placeEntry_reach_new (ord : List IndexEntry) (e : IndexEntry)
    (_hnz : e.ptr ≠ 0) (hcnt : nzCount ord < ord.length) :
    Reach (placeEntry ord e) e := by
  have hn : 0 < ord.length := by omega
  obtain ⟨j0, hj0, hj0z⟩ := exists_empty_slot ord hcnt
  obtain ⟨j, hfe⟩ := findEmpty_success ord (hashSlot e.hash ord.length) ord.length hn ⟨j0, hj0, hj0z⟩
  obtain ⟨x, hx0, hxlt, hxj, hjz, hmin⟩ := findEmpty_some_spec ord _ _ _ _ _ hfe
  have hset : placeEntry ord e = ord.set j e := by unfold placeEntry; rw [hfe]
  have hjlt : j < ord.length := by rw [hxj]; exact Nat.mod_lt _ hn
  unfold Reach
  rw [hset, List.length_set]
  refine ⟨x, by omega, ?_, ?_⟩
  · rw [← hxj]
    exact getD_set_self hjlt
  · intro d2 hd2
    have hne := hmin d2 (Nat.zero_le _) hd2
    have hneq : (d2 + hashSlot e.hash ord.length) % ord.length ≠ j := by
      intro hcontra
      rw [hcontra] at hne
      exact hne hjz
    rw [getD_set_ne hneq]
    exact hne

theorem placeEntry_preserve_reach (ord : List IndexEntry) (e e0 : IndexEntry)
    (h0 : e0.ptr ≠ 0) (hr : Reach ord e0) : Reach (placeEntry ord e) e0 := by
  obtain ⟨d, hd, heq, hbefore⟩ := hr
  refine ⟨d, ?_, ?_, ?_⟩
  · rw [placeEntry_length]; exact hd
  · rw [placeEntry_length]
    rw [placeEntry_preserve_nonzero ord e _ (by rw [heq]; exact h0)]
    exact heq
  · intro d2 hd2
    rw [placeEntry_length]
    have := hbefore d2 hd2
    rw [placeEntry_preserve_nonzero ord e _ this]
    exact this

theorem placeEntry_nzCount (ord : List IndexEntry) (e : IndexEntry) :
    nzCount (placeEntry ord e) ≤ nzCount ord + 1 := by
  unfold placeEntry nzCount
  split
  · exact countP_set_le ord _ _ _
  · omega

/-- The fold invariant for `Writer::finalize`'s per-bucket placement. -/
def InvP (placed : List IndexEntry) (ord : List IndexEntry) : Prop :=
  (∀ j, ((ord.getD j default).ptr ≠ 0) → ord.getD j default ∈ placed) ∧
    (∀ e ∈ placed, e.ptr ≠ 0 → Reach ord e) ∧
    nzCount ord ≤ placed.length

theorem foldl_place_inv (n : Nat) :
    ∀ (rest placed ord : List IndexEntry), ord.length = n →
      placed.length + rest.length < n → InvP placed ord →
      InvP (placed ++ rest) (rest.foldl placeEntry ord) ∧
        (rest.foldl placeEntry ord).length = n := by
  intro rest
  induction rest with
  | nil => intro placed ord hlen _ hinv; simpa using ⟨hinv, hlen⟩
  | cons e rest ih =>
    intro placed ord hlen hbound hinv
    obtain ⟨hmem, hreach, hcnt⟩ := hinv
    simp only [List.foldl_cons]
    have hlen2 : (placeEntry ord e).length = n := by rw [placeEntry_length]; exact hlen
    have hinv2 : InvP (placed ++ [e]) (placeEntry ord e) := by
      refine ⟨?_, ?_, ?_⟩
      · intro j hj
        rcases placeEntry_new_or_old ord e j with hold | hnew
        · rw [hold] at hj ⊢
          exact List.mem_append_left _ (hmem j hj)
        · rw [hnew]
          exact List.mem_append_right _ (List.mem_singleton_self e)
      · intro e0 he0 h0
        rcases List.mem_append.mp he0 with hin | hsing
        · exact placeEntry_preserve_reach ord e e0 h0 (hreach e0 hin h0)
        · rw [List.mem_singleton.mp hsing]
          apply placeEntry_reach_new ord e (by rwa [← List.mem_singleton.mp hsing])
          show nzCount ord < ord.length
          have h1 : ord.length = n := hlen
          have h2 : (e :: rest).length = rest.length + 1 := rfl
          omega
      · calc nzCount (placeEntry ord e) ≤ nzCount ord + 1 := placeEntry_nzCount ord e
          _ ≤ placed.length + 1 := by omega
          _ = (placed ++ [e]).length := by simp
    have hbound2 : (placed ++ [e]).length + rest.length < n := by
      have h3 : (placed ++ [e]).length = placed.length + 1 := by simp
      have h2 : (e :: rest).length = rest.length + 1 := rfl
      omega
    obtain ⟨hfin, hfinlen⟩ := ih (placed ++ [e]) (placeEntry ord e) hlen2 hbound2 hinv2
    rw [List.append_assoc] at hfin
    simpa using ⟨hfin, hfinlen⟩

end Cdb

namespace Cdb

theorem tableLen_def (tbl : List IndexEntry) :
    tableLen tbl = 2 * tbl.length % U32 := by
  unfold tableLen
  rw [Nat.shiftLeft_eq]
  norm_num
  ring_nf

theorem tableLen_eq (tbl : List IndexEntry) (h : 2 * tbl.length < U32) :
    tableLen tbl = 2 * tbl.length := by
  rw [tableLen_def]
  exact Nat.mod_eq_of_lt h

theorem foldl_placeEntry_length (rest : List IndexEntry) :
    ∀ ord, (rest.foldl placeEntry ord).length = ord.length := by
  induction rest with
  | nil => intro ord; rfl
  | cons e rest ih =>
    intro ord
    simp only [List.foldl_cons]
    rw [ih, placeEntry_length]

theorem buildTable_length (tbl : List IndexEntry) :
    (buildTable tbl).length = tableLen tbl := by
  unfold buildTable
  rw [foldl_placeEntry_length, List.length_replicate]

theorem nzCount_replicate (m : Nat) :
    nzCount (List.replicate m (default : IndexEntry)) = 0 := by
  unfold nzCount
  rw [List.countP_eq_zero]
  intro a ha
  rw [List.eq_of_mem_replicate ha]
  simp [default]

theorem getD_replicate_default {m j : Nat} :
    (List.replicate m (default : IndexEntry)).getD j default = default := by
  by_cases h : j < m
  · exact getD_replicate_val h
  · exact List.getD_eq_default _ _ (by simpa using h)

/-- Everything the later proofs need about the placed slot array of one
bucket: its slots are sentinels or pending entries, and every pending
entry with a non-zero pointer is reachable by the probe sequence. -/
theorem buildTable_facts (tbl : List IndexEntry) (h1 : 1 ≤ tbl.length)
    (hsz : 2 * tbl.length < U32) :
    (∀ j, ((buildTable tbl).getD j default).ptr ≠ 0 →
        (buildTable tbl).getD j default ∈ tbl) ∧
      (∀ e ∈ tbl, e.ptr ≠ 0 → Reach (buildTable tbl) e) := by
  have hn : tableLen tbl = 2 * tbl.length := tableLen_eq tbl hsz
  have hstart : InvP [] (List.replicate (tableLen tbl) default) := by
    refine ⟨?_, ?_, ?_⟩
    · intro j hj
      rw [getD_replicate_default] at hj
      simp [default] at hj
    · intro e he
      simp at he
    · rw [nzCount_replicate]
      exact Nat.zero_le _
  have hbound : ([] : List IndexEntry).length + tbl.length < tableLen tbl := by
    simp only [List.length_nil]
    omega
  obtain ⟨⟨hmem, hreach, _⟩, _⟩ :=
    foldl_place_inv (tableLen tbl) tbl []
      (List.replicate (tableLen tbl) default) (by simp) hbound hstart
  constructor
  · intro j hj
    simpa using hmem j hj
  · intro e he h0
    exact hreach e (by simpa using he) h0

end Cdb

namespace Cdb

/-- The bytes of the record region after a sequence of `put`s. -/
def recsBytes (ps : List (List Nat × List Nat)) : List Nat :=
  ps.flatMap (fun kv => recBytes kv.1 kv.2)

/-- The index entries generated by a sequence of `put`s, with `base` the
file position at which the first record of the sequence begins. -/
def entsFrom (base : Nat) : List (List Nat × List Nat) → List IndexEntry
  | [] => []
  | kv :: rest =>
    ⟨cdbHash kv.1, base % U32⟩ ::
      entsFrom (base + (recBytes kv.1 kv.2).length) rest

/-- The pending list of bucket `b` after a sequence of `put`s: the
initial sentinel entry followed by the entries whose primary index is
`b`, in insertion order. -/
def bucketOf (b : Nat) (ps : List (List Nat × List Nat)) : List IndexEntry :=
  ⟨0, 0⟩ :: (entsFrom 2048 ps).filter (fun e => hashTable e.hash == b)

theorem recsBytes_append (ps : List (List Nat × List Nat)) (kv : List Nat × List Nat) :
    recsBytes (ps ++ [kv]) = recsBytes ps ++ recBytes kv.1 kv.2 := by
  unfold recsBytes
  rw [List.flatMap_append]
  simp

theorem entsFrom_append (ps : List (List Nat × List Nat)) (kv : List Nat × List Nat) :
    ∀ base, entsFrom base (ps ++ [kv]) =
      entsFrom base ps ++ [⟨cdbHash kv.1, (base + (recsBytes ps).length) % U32⟩] := by
  induction ps with
  | nil => intro base; simp [entsFrom, recsBytes]
  | cons kv0 rest ih =>
    intro base
    have h1 : entsFrom base ((kv0 :: rest) ++ [kv])
        = ⟨cdbHash kv0.1, base % U32⟩ ::
          entsFrom (base + (recBytes kv0.1 kv0.2).length) (rest ++ [kv]) := rfl
    have h2 : entsFrom base (kv0 :: rest)
        = ⟨cdbHash kv0.1, base % U32⟩ ::
          entsFrom (base + (recBytes kv0.1 kv0.2).length) rest := rfl
    have h3 : (recsBytes (kv0 :: rest)).length
        = (recBytes kv0.1 kv0.2).length + (recsBytes rest).length := by
      simp [recsBytes]
    rw [h1, ih, h2, h3, List.cons_append, ← Nat.add_assoc]

theorem bucketOf_append (b : Nat) (ps : List (List Nat × List Nat))
    (kv : List Nat × List Nat) :
    bucketOf b (ps ++ [kv]) =
      bucketOf b ps ++
        (if hashTable (cdbHash kv.1) = b
          then [⟨cdbHash kv.1, (2048 + (recsBytes ps).length) % U32⟩]
          else []) := by
  unfold bucketOf
  rw [entsFrom_append, List.filter_append]
  by_cases hb : hashTable (cdbHash kv.1) = b
  · simp [hb]
  · simp [hb]

end Cdb

namespace Cdb

theorem hashTable_lt (h : Nat) : hashTable h < 256 := Nat.mod_lt _ (by decide)

theorem writerPuts_append (ps : List (List Nat × List Nat)) (kv : List Nat × List Nat) :
    writerPuts (ps ++ [kv]) = writerPut (writerPuts ps) kv.1 kv.2 := by
  unfold writerPuts
  rw [List.foldl_append]
  rfl

/-- Characterisation of the writer state after a sequence of `put`s:
the file is the reserved primary table followed by the packed records,
and bucket `b`'s pending list is `bucketOf b ps`. -/
theorem writerPuts_spec (ps : List (List Nat × List Nat)) :
    (writerPuts ps).file = List.replicate 2048 0 ++ recsBytes ps ∧
      (writerPuts ps).index.length = 256 ∧
      ∀ b, b < 256 → (writerPuts ps).index.getD b [] = bucketOf b ps := by
  induction ps using List.reverseRecOn with
  | nil =>
    refine ⟨?_, ?_, ?_⟩
    · show List.replicate 2048 0 = List.replicate 2048 0 ++ recsBytes []
      rw [show recsBytes [] = [] from rfl, List.append_nil]
    · show (List.replicate 256 [(⟨0, 0⟩ : IndexEntry)]).length = 256
      rw [List.length_replicate]
    intro b hb
    show (List.replicate 256 [(⟨0, 0⟩ : IndexEntry)]).getD b [] = bucketOf b []
    rw [getD_replicate_val hb]
    simp [bucketOf, entsFrom]
  | append_singleton ps kv ih =>
    obtain ⟨hfile, hlen, hidx⟩ := ih
    rw [writerPuts_append]
    set s := writerPuts ps with hs
    have hflen : s.file.length = 2048 + (recsBytes ps).length := by
      rw [hfile, List.length_append, List.length_replicate]
    set h := cdbHash kv.1 with hh
    have hb0 : hashTable h < 256 := hashTable_lt h
    refine ⟨?_, ?_, ?_⟩
    · show s.file ++ recBytes kv.1 kv.2 = _
      rw [hfile, recsBytes_append, List.append_assoc]
    · show (s.index.set (hashTable h) _).length = 256
      rw [List.length_set]; exact hlen
    · intro b hb
      show (s.index.set (hashTable h)
        (s.index.getD (hashTable h) [] ++ [⟨h, s.file.length % U32⟩])).getD b []
        = bucketOf b (ps ++ [kv])
      by_cases hbe : b = hashTable h
      · subst hbe
        rw [getD_set_self (by rw [hlen]; exact hb0)]
        rw [hidx _ hb0, hflen, bucketOf_append]
        rw [if_pos rfl]
      · rw [getD_set_ne hbe]
        rw [hidx _ hb, bucketOf_append]
        rw [if_neg (fun hcontra => hbe hcontra.symm)]
        simp

end Cdb

namespace Cdb

/-- Every generated index entry points at its record: its hash is the
key's hash and its pointer is `base` plus the length of the records
written before it, truncated to `u32`. -/
theorem entsFrom_mem_split (ps : List (List Nat × List Nat)) :
    ∀ base e, e ∈ entsFrom base ps →
      ∃ A B kv, kv ∈ ps ∧
        recsBytes ps = A ++ recBytes kv.1 kv.2 ++ B ∧
        e.hash = cdbHash kv.1 ∧ e.ptr = (base + A.length) % U32 := by
  induction ps with
  | nil => intro base e he; simp [entsFrom] at he
  | cons kv0 rest ih =>
    intro base e he
    rw [show entsFrom base (kv0 :: rest)
      = ⟨cdbHash kv0.1, base % U32⟩ ::
        entsFrom (base + (recBytes kv0.1 kv0.2).length) rest from rfl] at he
    rcases List.mem_cons.mp he with rfl | htail
    · exact ⟨[], recsBytes rest, kv0, List.mem_cons_self _ _,
        by simp [recsBytes], rfl, by simp⟩
    · obtain ⟨A, B, kv, hmem, hsplit, hh, hp⟩ := ih _ e htail
      refine ⟨recBytes kv0.1 kv0.2 ++ A, B, kv, List.mem_cons_of_mem _ hmem, ?_, hh, ?_⟩
      · rw [show recsBytes (kv0 :: rest)
          = recBytes kv0.1 kv0.2 ++ recsBytes rest from by simp [recsBytes]]
        rw [hsplit]
        simp [List.append_assoc]
      · rw [hp, List.length_append]
        congr 1
        omega

/-- Conversely, every `put` pair has a generated entry pointing at its
own record. -/
theorem entsFrom_of_mem (ps : List (List Nat × List Nat)) :
    ∀ base kv, kv ∈ ps →
      ∃ A B, recsBytes ps = A ++ recBytes kv.1 kv.2 ++ B ∧
        (⟨cdbHash kv.1, (base + A.length) % U32⟩ : IndexEntry) ∈ entsFrom base ps := by
  induction ps with
  | nil => intro base kv hkv; simp at hkv
  | cons kv0 rest ih =>
    intro base kv hkv
    rcases List.mem_cons.mp hkv with rfl | htail
    · refine ⟨[], recsBytes rest, by simp [recsBytes], ?_⟩
      rw [show entsFrom base (kv :: rest)
        = ⟨cdbHash kv.1, base % U32⟩ ::
          entsFrom (base + (recBytes kv.1 kv.2).length) rest from rfl]
      simp
    · obtain ⟨A, B, hsplit, hmem⟩ := ih (base + (recBytes kv0.1 kv0.2).length) kv htail
      refine ⟨recBytes kv0.1 kv0.2 ++ A, B, ?_, ?_⟩
      · rw [show recsBytes (kv0 :: rest)
          = recBytes kv0.1 kv0.2 ++ recsBytes rest from by simp [recsBytes]]
        rw [hsplit]
        simp [List.append_assoc]
      · rw [show entsFrom base (kv0 :: rest)
          = ⟨cdbHash kv0.1, base % U32⟩ ::
            entsFrom (base + (recBytes kv0.1 kv0.2).length) rest from rfl]
        apply List.mem_cons_of_mem
        rw [List.length_append, show base + ((recBytes kv0.1 kv0.2).length + A.length)
          = base + (recBytes kv0.1 kv0.2).length + A.length from by omega]
        exact hmem

end Cdb

namespace Cdb

/-- All the secondary-table bytes emitted by `finalize`, in bucket order. -/
def finTabs (idx : List (List IndexEntry)) : List Nat :=
  idx.flatMap (fun t => serializeTable (buildTable t))

/-- The primary-table entries accumulated by `finalize`, starting with
the file already `base` bytes long. -/
def finBuckets (base : Nat) : List (List IndexEntry) → List Bucket
  | [] => []
  | t :: rest => ⟨base % U32, tableLen t⟩ :: finBuckets (base + 8 * tableLen t) rest

/-- Sum of the slot counts of a list of bucket lists. -/
def sumTL (idx : List (List IndexEntry)) : Nat := (idx.map tableLen).sum

theorem serializePairs_length (l : List (Nat × Nat)) :
    (serializePairs l).length = 8 * l.length := by
  induction l with
  | nil => rfl
  | cons p rest ih =>
    unfold serializePairs at ih ⊢
    rw [List.flatMap_cons, List.length_append, ih]
    simp [u32le_length]
    omega

theorem serializeTable_length (ord : List IndexEntry) :
    (serializeTable ord).length = 8 * ord.length := by
  unfold serializeTable
  rw [serializePairs_length, List.length_map]

theorem finalize_foldl_spec (idx : List (List IndexEntry)) :
    ∀ file bks, idx.foldl finalizeStep (file, bks) =
      (file ++ finTabs idx, bks ++ finBuckets file.length idx) := by
  induction idx with
  | nil => intro file bks; simp [finTabs, finBuckets]
  | cons t rest ih =>
    intro file bks
    rw [List.foldl_cons]
    show rest.foldl finalizeStep
      (file ++ serializeTable (buildTable t), bks ++ [⟨file.length % U32, tableLen t⟩]) = _
    rw [ih]
    have hlen : (file ++ serializeTable (buildTable t)).length
        = file.length + 8 * tableLen t := by
      rw [List.length_append, serializeTable_length, buildTable_length]
    rw [hlen]
    rw [show finTabs (t :: rest)
      = serializeTable (buildTable t) ++ finTabs rest from by simp [finTabs]]
    rw [show finBuckets file.length (t :: rest)
      = ⟨file.length % U32, tableLen t⟩ :: finBuckets (file.length + 8 * tableLen t) rest
      from rfl]
    simp [List.append_assoc]

theorem finBuckets_length (idx : List (List IndexEntry)) :
    ∀ base, (finBuckets base idx).length = idx.length := by
  induction idx with
  | nil => intro base; rfl
  | cons t rest ih =>
    intro base
    show (finBuckets (base + 8 * tableLen t) rest).length + 1 = rest.length + 1
    rw [ih]

theorem writerFinalize_eq (s : WriterState) (h2048 : 2048 ≤ s.file.length) :
    writerFinalize s =
      serializePairs ((finBuckets s.file.length s.index).map
        (fun b => (b.ptr, b.num_ents))) ++
        (s.file.drop 2048 ++ finTabs s.index) := by
  unfold writerFinalize
  rw [finalize_foldl_spec]
  simp only [List.nil_append]
  rw [List.drop_append_of_le_length h2048]

theorem finBuckets_getD (idx : List (List IndexEntry)) :
    ∀ base b, b < idx.length →
      (finBuckets base idx).getD b ⟨0, 0⟩ =
        ⟨(base + 8 * sumTL (idx.take b)) % U32, tableLen (idx.getD b [])⟩ := by
  induction idx with
  | nil => intro base b hb; simp at hb
  | cons t rest ih =>
    intro base b hb
    cases b with
    | zero => simp [finBuckets, sumTL]
    | succ b2 =>
      show (finBuckets (base + 8 * tableLen t) rest).getD b2 ⟨0, 0⟩ = _
      rw [ih _ b2 (by simpa using hb)]
      rw [show (t :: rest).take (b2 + 1) = t :: rest.take b2 from rfl]
      rw [show (t :: rest).getD (b2 + 1) [] = rest.getD b2 [] from rfl]
      rw [show sumTL (t :: rest.take b2) = tableLen t + sumTL (rest.take b2) from by
        simp [sumTL]]
      congr 2
      omega

theorem finTabs_split (idx : List (List IndexEntry)) :
    ∀ b, b < idx.length →
      ∃ pre post, finTabs idx = pre ++ serializeTable (buildTable (idx.getD b [])) ++ post ∧
        pre.length = 8 * sumTL (idx.take b) := by
  induction idx with
  | nil => intro b hb; simp at hb
  | cons t rest ih =>
    intro b hb
    cases b with
    | zero =>
      refine ⟨[], finTabs rest, ?_, by simp [sumTL]⟩
      simp [finTabs]
    | succ b2 =>
      obtain ⟨pre, post, hsplit, hlen⟩ := ih b2 (by simpa using hb)
      refine ⟨serializeTable (buildTable t) ++ pre, post, ?_, ?_⟩
      · rw [show finTabs (t :: rest)
          = serializeTable (buildTable t) ++ finTabs rest from by simp [finTabs]]
        rw [hsplit]
        rw [show (t :: rest).getD (b2 + 1) [] = rest.getD b2 [] from rfl]
        simp [List.append_assoc]
      · rw [List.length_append, hlen, serializeTable_length, buildTable_length]
        rw [show (t :: rest).take (b2 + 1) = t :: rest.take b2 from rfl]
        rw [show sumTL (t :: rest.take b2) = tableLen t + sumTL (rest.take b2) from by
          simp [sumTL]]
        omega

end Cdb

namespace Cdb

/-- Sum of slot counts of the buckets before bucket `b`. -/
def sumTLB (ps : List (List Nat × List Nat)) (b : Nat) : Nat :=
  ((List.range b).map (fun b2 => tableLen (bucketOf b2 ps))).sum

/-- Absolute offset of bucket `b`'s secondary table in the final file. -/
def tableOffset (ps : List (List Nat × List Nat)) (b : Nat) : Nat :=
  2048 + (recsBytes ps).length + 8 * sumTLB ps b

/-- The primary-table bytes of the final file. -/
def primBytes (ps : List (List Nat × List Nat)) : List Nat :=
  serializePairs ((finBuckets (2048 + (recsBytes ps).length)
    (writerPuts ps).index).map (fun b => (b.ptr, b.num_ents)))

/-- The secondary-table bytes of the final file. -/
def tabsBytes (ps : List (List Nat × List Nat)) : List Nat :=
  finTabs (writerPuts ps).index

theorem sumTL_take_eq (idx : List (List IndexEntry))
    (f : Nat → List IndexEntry) (hf : ∀ i, i < idx.length → idx.getD i [] = f i) :
    ∀ b, b ≤ idx.length →
      sumTL (idx.take b) = ((List.range b).map (fun i => tableLen (f i))).sum := by
  intro b
  induction b with
  | zero => intro _; simp [sumTL]
  | succ b2 ih =>
    intro hb
    rw [List.take_succ, List.range_succ, List.map_append, List.sum_append]
    rw [show sumTL (idx.take b2 ++ idx[b2]?.toList)
      = sumTL (idx.take b2) + sumTL idx[b2]?.toList from by simp [sumTL]]
    rw [ih (by omega)]
    have hlt : b2 < idx.length := by omega
    rw [List.getElem?_eq_getElem hlt]
    have : idx[b2] = f b2 := by
      rw [← hf b2 hlt, List.getD_eq_getElem _ _ hlt]
    rw [this]
    simp [sumTL]

theorem writerPuts_file_length (ps : List (List Nat × List Nat)) :
    (writerPuts ps).file.length = 2048 + (recsBytes ps).length := by
  rw [(writerPuts_spec ps).1, List.length_append, List.length_replicate]

/-- The final file is primary table, then records, then secondary tables. -/
theorem buildFile_layout (ps : List (List Nat × List Nat)) :
    buildFile ps = primBytes ps ++ (recsBytes ps ++ tabsBytes ps) := by
  unfold buildFile primBytes tabsBytes
  rw [writerFinalize_eq _ (by rw [writerPuts_file_length]; omega)]
  rw [writerPuts_file_length]
  congr 1
  rw [(writerPuts_spec ps).1]
  have hdrop : ∀ (l1 l2 : List Nat), l1.length = 2048 → (l1 ++ l2).drop 2048 = l2 := by
    intro l1 l2 h
    rw [← h]
    exact List.drop_left _ _
  rw [hdrop _ _ (List.length_replicate _ _)]

theorem primBytes_length (ps : List (List Nat × List Nat)) :
    (primBytes ps).length = 2048 := by
  unfold primBytes
  rw [serializePairs_length, List.length_map, finBuckets_length,
    (writerPuts_spec ps).2.1]

theorem serializePairs_readU32 (l : List (Nat × Nat)) (rest : List Nat) :
    ∀ j, j < l.length →
      readU32 (serializePairs l ++ rest) (8 * j) = (l.getD j (0, 0)).1 % U32 ∧
        readU32 (serializePairs l ++ rest) (8 * j + 4) = (l.getD j (0, 0)).2 % U32 := by
  induction l with
  | nil => intro j hj; simp at hj
  | cons p tail ih =>
    intro j hj
    have hhead : serializePairs (p :: tail) ++ rest
        = u32le p.1 ++ (u32le p.2 ++ (serializePairs tail ++ rest)) := by
      unfold serializePairs
      simp [List.append_assoc]
    cases j with
    | zero =>
      rw [hhead]
      simpa using readU32_u32le_pair p.1 p.2 (serializePairs tail ++ rest)
    | succ j2 =>
      have h8 : (u32le p.1 ++ u32le p.2).length = 8 := by simp [u32le_length]
      have hassoc : serializePairs (p :: tail) ++ rest
          = (u32le p.1 ++ u32le p.2) ++ (serializePairs tail ++ rest) := by
        unfold serializePairs
        simp [List.append_assoc]
      constructor
      · rw [hassoc, readU32_append_right (by omega : (u32le p.1 ++ u32le p.2).length ≤ 8 * (j2 + 1))]
        rw [h8, show 8 * (j2 + 1) - 8 = 8 * j2 from by omega]
        exact (ih j2 (by simpa using hj)).1
      · rw [hassoc, readU32_append_right (by omega : (u32le p.1 ++ u32le p.2).length ≤ 8 * (j2 + 1) + 4)]
        rw [h8, show 8 * (j2 + 1) + 4 - 8 = 8 * j2 + 4 from by omega]
        exact (ih j2 (by simpa using hj)).2

end Cdb

namespace Cdb

theorem getD_map_lt {α β : Type} (f : α → β) (l : List α) (j : Nat) (d : β)
    (d0 : α) (h : j < l.length) : (l.map f).getD j d = f (l.getD j d0) := by
  rw [List.getD_eq_getElem _ _ (by simpa using h), List.getD_eq_getElem _ _ h,
    List.getElem_map]

theorem tableLen_lt (tbl : List IndexEntry) : tableLen tbl < U32 := by
  rw [tableLen_def]
  exact Nat.mod_lt _ U32_pos

/-- Decoding the primary-table entry of bucket `b` from the final file. -/
theorem primary_decode (ps : List (List Nat × List Nat)) (b : Nat) (hb : b < 256) :
    readU32 (buildFile ps) (8 * b) = tableOffset ps b % U32 ∧
      readU32 (buildFile ps) (8 * b + 4) = tableLen (bucketOf b ps) := by
  have hspec := writerPuts_spec ps
  set idx := (writerPuts ps).index with hidxdef
  have hlen256 : idx.length = 256 := hspec.2.1
  have hblt : b < ((finBuckets (2048 + (recsBytes ps).length) idx).map
      (fun bk => (bk.ptr, bk.num_ents))).length := by
    rw [List.length_map, finBuckets_length, hlen256]; exact hb
  have hdec := serializePairs_readU32
    ((finBuckets (2048 + (recsBytes ps).length) idx).map (fun bk => (bk.ptr, bk.num_ents)))
    (recsBytes ps ++ tabsBytes ps) b hblt
  rw [buildFile_layout ps]
  rw [show primBytes ps = serializePairs ((finBuckets (2048 + (recsBytes ps).length) idx).map
    (fun bk => (bk.ptr, bk.num_ents))) from rfl]
  have hgetD : ((finBuckets (2048 + (recsBytes ps).length) idx).map
      (fun bk => (bk.ptr, bk.num_ents))).getD b (0, 0)
      = ((finBuckets (2048 + (recsBytes ps).length) idx).getD b (⟨0, 0⟩ : Bucket) |>.ptr,
         (finBuckets (2048 + (recsBytes ps).length) idx).getD b (⟨0, 0⟩ : Bucket) |>.num_ents) := by
    exact getD_map_lt _ _ b (0, 0) (⟨0, 0⟩ : Bucket)
      (by rw [finBuckets_length, hlen256]; exact hb)
  have hfb := finBuckets_getD idx (2048 + (recsBytes ps).length) b (by rw [hlen256]; exact hb)
  have hf : ∀ i, i < idx.length → idx.getD i [] = bucketOf i ps := by
    intro i hi
    exact hspec.2.2 i (by rwa [hlen256] at hi)
  have hsum : sumTL (idx.take b) = sumTLB ps b :=
    sumTL_take_eq idx (fun i => bucketOf i ps) hf b (by rw [hlen256]; omega)
  have hgetb : idx.getD b [] = bucketOf b ps := hspec.2.2 b hb
  rw [hgetD, hfb, hsum, hgetb] at hdec
  constructor
  · rw [hdec.1]
    show (2048 + (recsBytes ps).length + 8 * sumTLB ps b) % U32 % U32 = _
    unfold tableOffset
    exact Nat.mod_mod_of_dvd _ dvd_rfl
  · rw [hdec.2]
    show tableLen (bucketOf b ps) % U32 = _
    exact Nat.mod_eq_of_lt (tableLen_lt _)

theorem finTabs_length (idx : List (List IndexEntry)) :
    (finTabs idx).length = 8 * sumTL idx := by
  induction idx with
  | nil => rfl
  | cons t rest ih =>
    rw [show finTabs (t :: rest) = serializeTable (buildTable t) ++ finTabs rest from by
      simp [finTabs]]
    rw [List.length_append, ih, serializeTable_length, buildTable_length]
    rw [show sumTL (t :: rest) = tableLen t + sumTL rest from by simp [sumTL]]
    omega

/-- Exact length of the finalised file. -/
theorem buildFile_length (ps : List (List Nat × List Nat)) :
    (buildFile ps).length = 2048 + (recsBytes ps).length + 8 * sumTLB ps 256 := by
  rw [buildFile_layout ps, List.length_append, List.length_append, primBytes_length]
  have hspec := writerPuts_spec ps
  have hsum : sumTL (writerPuts ps).index = sumTLB ps 256 := by
    have htake : (writerPuts ps).index.take 256 = (writerPuts ps).index := by
      rw [← hspec.2.1]
      exact List.take_length _
    have hf : ∀ i, i < (writerPuts ps).index.length →
        (writerPuts ps).index.getD i [] = bucketOf i ps := by
      intro i hi
      exact hspec.2.2 i (by rwa [hspec.2.1] at hi)
    rw [← htake]
    exact sumTL_take_eq _ (fun i => bucketOf i ps) hf 256 (by rw [hspec.2.1])
  show 2048 + ((recsBytes ps).length + (tabsBytes ps).length) = _
  unfold tabsBytes
  rw [finTabs_length, hsum]
  omega

end Cdb

namespace Cdb

/-- The placed slot array of bucket `b` in the final file. -/
def ordOf (ps : List (List Nat × List Nat)) (b : Nat) : List IndexEntry :=
  buildTable (bucketOf b ps)

theorem foldl_slot_mem (S : List IndexEntry) :
    ∀ (rest : List IndexEntry) (ord : List IndexEntry),
      (∀ e ∈ rest, e ∈ S) →
      (∀ j, ord.getD j default = default ∨ ord.getD j default ∈ S) →
      ∀ j, (rest.foldl placeEntry ord).getD j default = default ∨
        (rest.foldl placeEntry ord).getD j default ∈ S := by
  intro rest
  induction rest with
  | nil => intro ord _ hord j; exact hord j
  | cons e rest ih =>
    intro ord hrest hord j
    simp only [List.foldl_cons]
    apply ih
    · intro x hx; exact hrest x (List.mem_cons_of_mem _ hx)
    · intro j2
      rcases placeEntry_new_or_old ord e j2 with hold | hnew
      · rw [hold]; exact hord j2
      · rw [hnew]; exact Or.inr (hrest e (List.mem_cons_self _ _))

theorem buildTable_slot_mem (tbl : List IndexEntry) (j : Nat) :
    (buildTable tbl).getD j default = default ∨ (buildTable tbl).getD j default ∈ tbl := by
  unfold buildTable
  exact foldl_slot_mem tbl tbl (List.replicate (tableLen tbl) default)
    (fun e he => he) (fun _ => Or.inl getD_replicate_default) j

theorem recBytes_length (k v : List Nat) :
    (recBytes k v).length = 8 + k.length + v.length := by
  unfold recBytes
  simp [u32le_length]
  omega

/-- Every entry in a bucket's pending list has in-range fields, given
byte-valid keys. -/
theorem bucketOf_bounds (ps : List (List Nat × List Nat))
    (hbytes : ∀ kv ∈ ps, ∀ x ∈ kv.1, x < 256) (b : Nat) :
    ∀ e ∈ bucketOf b ps, e.hash < U32 ∧ e.ptr < U32 := by
  intro e he
  rcases List.mem_cons.mp he with rfl | hfil
  · exact ⟨by decide, by decide⟩
  · have hent := List.mem_of_mem_filter hfil
    obtain ⟨A, B, kv, hkv, _, hh, hp⟩ := entsFrom_mem_split ps 2048 e hent
    constructor
    · rw [hh]; exact cdbHash_lt _ (hbytes kv hkv)
    · rw [hp]; exact Nat.mod_lt _ U32_pos

theorem drop_len_append (l1 l2 : List Nat) (n : Nat) (h : l1.length = n) :
    (l1 ++ l2).drop n = l2 := by
  rw [← h]
  exact List.drop_left _ _

/-- Decoding slot `j` of bucket `b`'s secondary table from the file. -/
theorem table_slot_decode (ps : List (List Nat × List Nat)) (b : Nat) (hb : b < 256)
    (hbnd : ∀ e ∈ bucketOf b ps, e.hash < U32 ∧ e.ptr < U32)
    (j : Nat) (hj : j < tableLen (bucketOf b ps)) :
    index_entry_at (buildFile ps) (tableOffset ps b + 8 * j)
      = some ((ordOf ps b).getD j default) := by
  have hspec := writerPuts_spec ps
  have hlen256 : (writerPuts ps).index.length = 256 := hspec.2.1
  obtain ⟨pre, post, hsplit, hprelen⟩ :=
    finTabs_split (writerPuts ps).index b (by rw [hlen256]; exact hb)
  rw [hspec.2.2 b hb] at hsplit
  have hf : ∀ i, i < (writerPuts ps).index.length →
      (writerPuts ps).index.getD i [] = bucketOf i ps := by
    intro i hi
    exact hspec.2.2 i (by rwa [hlen256] at hi)
  have hsum : sumTL ((writerPuts ps).index.take b) = sumTLB ps b :=
    sumTL_take_eq _ (fun i => bucketOf i ps) hf b (by rw [hlen256]; omega)
  rw [hsum] at hprelen
  have hF : buildFile ps
      = (primBytes ps ++ recsBytes ps ++ pre) ++
        (serializeTable (ordOf ps b) ++ post) := by
    rw [buildFile_layout ps]
    rw [show tabsBytes ps = finTabs (writerPuts ps).index from rfl, hsplit]
    unfold ordOf
    simp [List.append_assoc]
  have hpfx : (primBytes ps ++ recsBytes ps ++ pre).length = tableOffset ps b := by
    rw [List.length_append, List.length_append, primBytes_length, hprelen]
    unfold tableOffset
    omega
  have hstl : (serializeTable (ordOf ps b)).length = 8 * tableLen (bucketOf b ps) := by
    rw [serializeTable_length]
    unfold ordOf
    rw [buildTable_length]
  have hFlen : (buildFile ps).length
      = tableOffset ps b + 8 * tableLen (bucketOf b ps) + post.length := by
    rw [hF]
    rw [List.length_append (primBytes ps ++ recsBytes ps ++ pre)
      (serializeTable (ordOf ps b) ++ post)]
    rw [hpfx, List.length_append (serializeTable (ordOf ps b)) post, hstl]
    omega
  unfold index_entry_at
  have hge : ¬ (tableOffset ps b + 8 * j < 2048) := by
    unfold tableOffset
    omega
  rw [if_neg hge]
  have hin : tableOffset ps b + 8 * j + 8 ≤ (buildFile ps).length := by
    rw [hFlen]
    omega
  rw [if_pos hin]
  have hordlen : (ordOf ps b).length = tableLen (bucketOf b ps) := by
    unfold ordOf
    rw [buildTable_length]
  have hjord : j < ((ordOf ps b).map (fun e => (e.hash, e.ptr))).length := by
    rw [List.length_map, hordlen]; exact hj
  have hdec := serializePairs_readU32 ((ordOf ps b).map (fun e => (e.hash, e.ptr)))
    post j hjord
  have hread1 : readU32 (buildFile ps) (tableOffset ps b + 8 * j)
      = readU32 (serializeTable (ordOf ps b) ++ post) (8 * j) := by
    rw [hF, readU32_append_right (by rw [hpfx]; omega)]
    rw [hpfx]
    congr 1
    omega
  have hread2 : readU32 (buildFile ps) (tableOffset ps b + 8 * j + 4)
      = readU32 (serializeTable (ordOf ps b) ++ post) (8 * j + 4) := by
    rw [hF, readU32_append_right (by rw [hpfx]; omega)]
    rw [hpfx]
    congr 1
    omega
  have hgd : ((ordOf ps b).map (fun e => (e.hash, e.ptr))).getD j (0, 0)
      = (((ordOf ps b).getD j default).hash, ((ordOf ps b).getD j default).ptr) :=
    getD_map_lt _ _ j (0, 0) default (by rw [hordlen]; exact hj)
  have hbound : ((ordOf ps b).getD j default).hash < U32 ∧
      ((ordOf ps b).getD j default).ptr < U32 := by
    rcases buildTable_slot_mem (bucketOf b ps) j with hd | hm
    · unfold ordOf
      rw [hd]
      exact ⟨by decide, by decide⟩
    · exact hbnd _ hm
  rw [hread1, hread2]
  rw [show serializeTable (ordOf ps b)
    = serializePairs ((ordOf ps b).map (fun e => (e.hash, e.ptr))) from rfl]
  rw [hdec.1, hdec.2, hgd]
  show some (⟨((ordOf ps b).getD j default).hash % U32,
    ((ordOf ps b).getD j default).ptr % U32⟩ : IndexEntry) = _
  rw [Nat.mod_eq_of_lt hbound.1, Nat.mod_eq_of_lt hbound.2]

end Cdb

namespace Cdb

/-- Decoding the record behind an index entry of the final file: the
stored key and value come back exactly, for every entry generated by
the `put`s, provided the whole file is tracked by 32-bit offsets. -/
theorem record_decode (ps : List (List Nat × List Nat))
    (hsz : (buildFile ps).length < U32) :
    ∀ A B k v, recsBytes ps = A ++ recBytes k v ++ B →
      get_kv_ref (buildFile ps) ⟨cdbHash k, (2048 + A.length) % U32⟩ = some (k, v) ∧
        (2048 + A.length) % U32 = 2048 + A.length := by
  intro A B k v hsplit
  have hrlen : (recsBytes ps).length = A.length + (8 + k.length + v.length) + B.length := by
    rw [hsplit, List.length_append, List.length_append, recBytes_length]
  have hFlen := buildFile_length ps
  have hbig : 2048 + A.length + 8 + k.length + v.length ≤ (buildFile ps).length := by
    omega
  have hmod : (2048 + A.length) % U32 = 2048 + A.length :=
    Nat.mod_eq_of_lt (by omega)
  refine ⟨?_, hmod⟩
  have hF : buildFile ps
      = ((primBytes ps ++ A) ++ (u32le k.length ++ (u32le v.length ++ (k ++ (v ++ (B ++ tabsBytes ps)))))) := by
    rw [buildFile_layout ps, hsplit]
    unfold recBytes
    simp [List.append_assoc]
  have hplen : (primBytes ps ++ A).length = 2048 + A.length := by
    rw [List.length_append, primBytes_length]
  unfold get_kv_ref
  rw [hmod]
  rw [if_pos (by omega : 2048 + A.length + 8 ≤ (buildFile ps).length)]
  have hread1 : readU32 (buildFile ps) (2048 + A.length) = k.length := by
    rw [hF, readU32_append_right (by omega : (primBytes ps ++ A).length ≤ 2048 + A.length)]
    rw [hplen, Nat.sub_self, readU32_u32le]
    exact Nat.mod_eq_of_lt (by omega)
  have hread2 : readU32 (buildFile ps) (2048 + A.length + 4) = v.length := by
    rw [hF, readU32_append_right (by omega : (primBytes ps ++ A).length ≤ 2048 + A.length + 4)]
    rw [hplen, show 2048 + A.length + 4 - (2048 + A.length) = 4 from by omega]
    rw [readU32_append_right (by simp [u32le_length] : (u32le k.length).length ≤ 4)]
    rw [u32le_length, show (4 : Nat) - 4 = 0 from rfl, readU32_u32le]
    exact Nat.mod_eq_of_lt (by omega)
  rw [hread1, hread2]
  rw [if_pos (by omega : 2048 + A.length + 8 + k.length ≤ (buildFile ps).length)]
  rw [if_pos (by omega : 2048 + A.length + 8 + k.length + v.length ≤ (buildFile ps).length)]
  have hkslice : ((buildFile ps).drop (2048 + A.length + 8)).take k.length = k := by
    have hpre : ((primBytes ps ++ A) ++ (u32le k.length ++ u32le v.length)).length
        = 2048 + A.length + 8 := by
      rw [List.length_append, hplen, List.length_append, u32le_length, u32le_length]
    have hF2 : buildFile ps
        = ((primBytes ps ++ A) ++ (u32le k.length ++ u32le v.length)) ++
          (k ++ (v ++ (B ++ tabsBytes ps))) := by
      rw [hF]
      simp [List.append_assoc]
    rw [hF2, drop_len_append _ _ _ hpre]
    rw [show k ++ (v ++ (B ++ tabsBytes ps)) = k ++ (v ++ (B ++ tabsBytes ps)) from rfl]
    have := List.take_left k (v ++ (B ++ tabsBytes ps))
    simpa using this
  have hvslice : ((buildFile ps).drop (2048 + A.length + 8 + k.length)).take v.length = v := by
    have hpre : ((primBytes ps ++ A) ++ (u32le k.length ++ u32le v.length) ++ k).length
        = 2048 + A.length + 8 + k.length := by
      rw [List.length_append, List.length_append, hplen, List.length_append,
        u32le_length, u32le_length]
    have hF2 : buildFile ps
        = (((primBytes ps ++ A) ++ (u32le k.length ++ u32le v.length)) ++ k) ++
          (v ++ (B ++ tabsBytes ps)) := by
      rw [hF]
      simp [List.append_assoc]
    rw [hF2, drop_len_append _ _ _ (by simpa using hpre)]
    have := List.take_left v (B ++ tabsBytes ps)
    simpa using this
  rw [show (2048 + A.length + 8 : Nat) = 2048 + A.length + 8 from rfl]
  rw [hkslice]
  rw [show 2048 + A.length + 8 + k.length = 2048 + A.length + 8 + k.length from rfl]
  rw [hvslice]

end Cdb

namespace Cdb

theorem getLoop_step (data key buf : List Nat) (h bptr nents slot x fuel : Nat)
    (e : IndexEntry)
    (hdec : index_entry_at data (bptr + 8 * ((x + slot) % nents)) = some e) :
    getLoop data key buf h bptr nents slot x (fuel + 1)
      = if e.ptr = 0 then (.notFound, buf)
        else if e.hash = h then
          match get_kv_ref data e with
          | none => (.panicked, buf)
          | some kv =>
            if kv.1 = key then ((.found (copy_slice buf kv.2).1), (copy_slice buf kv.2).2)
            else getLoop data key buf h bptr nents slot (x + 1) fuel
        else getLoop data key buf h bptr nents slot (x + 1) fuel := by
  simp only [getLoop, hdec]

theorem getLoop_step_none (data key buf : List Nat) (h bptr nents slot x fuel : Nat)
    (hdec : index_entry_at data (bptr + 8 * ((x + slot) % nents)) = none) :
    getLoop data key buf h bptr nents slot x (fuel + 1) = (.panicked, buf) := by
  simp only [getLoop, hdec]

/-- If the probe sequence reaches a slot holding the looked-up record
before any empty slot, and every slot passed on the way either has a
different hash or a different key (or the same key with the same
value), the loop returns the value, truncated to the buffer. -/
theorem getLoop_found (data key buf : List Nat) (h bptr nents slot : Nat)
    (E : Nat → IndexEntry)
    (hdec : ∀ j, j < nents → index_entry_at data (bptr + 8 * j) = some (E j))
    (hn : 0 < nents) (v : List Nat) :
    ∀ fuel x d, d < fuel →
      ((E ((x + d + slot) % nents)).ptr ≠ 0 ∧
        (E ((x + d + slot) % nents)).hash = h ∧
        get_kv_ref data (E ((x + d + slot) % nents)) = some (key, v)) →
      (∀ d2, d2 < d →
        (E ((x + d2 + slot) % nents)).ptr ≠ 0 ∧
        ((E ((x + d2 + slot) % nents)).hash = h →
          ∃ kv, get_kv_ref data (E ((x + d2 + slot) % nents)) = some kv ∧
            (kv.1 ≠ key ∨ kv.2 = v))) →
      getLoop data key buf h bptr nents slot x fuel
        = (.found (min buf.length v.length),
           v.take (min buf.length v.length) ++ buf.drop (min buf.length v.length)) := by
  intro fuel
  induction fuel with
  | zero => intro x d hd; omega
  | succ fuel ih =>
    intro x d hd hmatch hpass
    have hjlt : (x + slot) % nents < nents := Nat.mod_lt _ hn
    rw [getLoop_step data key buf h bptr nents slot x fuel (E ((x + slot) % nents))
      (hdec _ hjlt)]
    cases d with
    | zero =>
      obtain ⟨hptr, hhash, hkv⟩ := hmatch
      rw [if_neg (by simpa using hptr), if_pos (by simpa using hhash)]
      have hkv2 : get_kv_ref data (E ((x + slot) % nents)) = some (key, v) := by
        simpa using hkv
      simp only [hkv2]
      rw [if_pos trivial]
      rfl
    | succ d2 =>
      obtain ⟨hptr0, hrest0⟩ := hpass 0 (Nat.succ_pos d2)
      rw [if_neg (by simpa using hptr0)]
      have hrec : getLoop data key buf h bptr nents slot (x + 1) fuel
          = (.found (min buf.length v.length),
             v.take (min buf.length v.length) ++ buf.drop (min buf.length v.length)) := by
        apply ih (x + 1) d2 (by omega)
        · rw [show x + 1 + d2 = x + (d2 + 1) from by omega]
          exact hmatch
        · intro d3 hd3
          rw [show x + 1 + d3 = x + (d3 + 1) from by omega]
          exact hpass (d3 + 1) (by omega)
      by_cases hh0 : (E ((x + slot) % nents)).hash = h
      · rw [if_pos hh0]
        obtain ⟨kv, hkvdec, hne⟩ := hrest0 (by simpa using hh0)
        have hkvdec2 : get_kv_ref data (E ((x + slot) % nents)) = some kv := by
          simpa using hkvdec
        simp only [hkvdec2]
        by_cases hkeq : kv.1 = key
        · rw [if_pos hkeq]
          have hveq : kv.2 = v := by
            rcases hne with hkne | hveq
            · exact absurd hkeq hkne
            · exact hveq
          rw [hveq]
          rfl
        · rw [if_neg hkeq]
          exact hrec
      · rw [if_neg hh0]
        exact hrec

end Cdb

namespace Cdb

/-- If no probed slot holds the looked-up key, the loop falls through to
`NotFound` (either via the empty-slot early exit or by exhausting the
table), leaving the buffer untouched. -/
theorem getLoop_absent (data key buf : List Nat) (h bptr nents slot : Nat)
    (E : Nat → IndexEntry)
    (hdec : ∀ j, j < nents → index_entry_at data (bptr + 8 * j) = some (E j))
    (hn : 0 < nents) :
    ∀ fuel x,
      (∀ d, d < fuel →
        (E ((x + d + slot) % nents)).ptr = 0 ∨
        ((E ((x + d + slot) % nents)).hash = h →
          ∃ kv, get_kv_ref data (E ((x + d + slot) % nents)) = some kv ∧ kv.1 ≠ key)) →
      getLoop data key buf h bptr nents slot x fuel = (.notFound, buf) := by
  intro fuel
  induction fuel with
  | zero => intro x _; rfl
  | succ fuel ih =>
    intro x hall
    have hjlt : (x + slot) % nents < nents := Nat.mod_lt _ hn
    rw [getLoop_step data key buf h bptr nents slot x fuel (E ((x + slot) % nents))
      (hdec _ hjlt)]
    by_cases hz : (E ((x + slot) % nents)).ptr = 0
    · rw [if_pos hz]
    · rw [if_neg hz]
      have hrec : getLoop data key buf h bptr nents slot (x + 1) fuel = (.notFound, buf) := by
        apply ih (x + 1)
        intro d3 hd3
        rw [show x + 1 + d3 = x + (d3 + 1) from by omega]
        exact hall (d3 + 1) (by omega)
      by_cases hh0 : (E ((x + slot) % nents)).hash = h
      · rw [if_pos hh0]
        rcases hall 0 (Nat.succ_pos fuel) with hz0 | hke
        · exact absurd (by simpa using hz0) hz
        · obtain ⟨kv, hkvdec, hne⟩ := hke (by simpa using hh0)
          have hkvdec2 : get_kv_ref data (E ((x + slot) % nents)) = some kv := by
            simpa using hkvdec
          simp only [hkvdec2]
          rw [if_neg hne]
          exact hrec
      · rw [if_neg hh0]
        exact hrec

theorem copy_slice_spec (dst src : List Nat) :
    (copy_slice dst src).1 = min dst.length src.length ∧
      (copy_slice dst src).2.length = dst.length ∧
      (copy_slice dst src).2.drop (copy_slice dst src).1
        = dst.drop (copy_slice dst src).1 := by
  unfold copy_slice
  refine ⟨rfl, ?_, ?_⟩
  · rw [List.length_append, List.length_take, List.length_drop]
    omega
  · have hlen : (src.take (min dst.length src.length)).length
        = min dst.length src.length := by
      rw [List.length_take]
      omega
    rw [drop_len_append _ _ _ hlen]

/-- The loop writes only through `copy_slice` on the found path: on
`NotFound` and on panic the buffer comes back unchanged, and on
`Found n` only the first `n` bytes changed. -/
theorem getLoop_frame (data key buf : List Nat) (h bptr nents slot : Nat) :
    ∀ fuel x,
      (∀ n, (getLoop data key buf h bptr nents slot x fuel).1 = .found n →
        n ≤ buf.length ∧
        (getLoop data key buf h bptr nents slot x fuel).2.length = buf.length ∧
        (getLoop data key buf h bptr nents slot x fuel).2.drop n = buf.drop n) ∧
      ((getLoop data key buf h bptr nents slot x fuel).1 = .notFound →
        (getLoop data key buf h bptr nents slot x fuel).2 = buf) ∧
      ((getLoop data key buf h bptr nents slot x fuel).1 = .panicked →
        (getLoop data key buf h bptr nents slot x fuel).2 = buf) := by
  intro fuel
  induction fuel with
  | zero =>
    intro x
    refine ⟨?_, fun _ => rfl, ?_⟩
    · intro n hn
      exact absurd hn (by simp [getLoop])
    · intro hp
      exact absurd hp (by simp [getLoop])
  | succ fuel ih =>
    intro x
    cases hie : index_entry_at data (bptr + 8 * ((x + slot) % nents)) with
    | none =>
      rw [getLoop_step_none data key buf h bptr nents slot x fuel hie]
      refine ⟨?_, ?_, fun _ => rfl⟩
      · intro n hn
        exact absurd hn (by simp)
      · intro hnf
        exact absurd hnf (by simp)
    | some e =>
      rw [getLoop_step data key buf h bptr nents slot x fuel e hie]
      by_cases hz : e.ptr = 0
      · rw [if_pos hz]
        refine ⟨?_, fun _ => rfl, ?_⟩
        · intro n hn
          exact absurd hn (by simp)
        · intro hp
          exact absurd hp (by simp)
      · rw [if_neg hz]
        by_cases hh : e.hash = h
        · rw [if_pos hh]
          cases hkv : get_kv_ref data e with
          | none =>
            exact ⟨by simp, by simp, by simp⟩
          | some kv =>
            simp only []
            by_cases hk : kv.1 = key
            · rw [if_pos hk]
              obtain ⟨hc1, hc2, hc3⟩ := copy_slice_spec buf kv.2
              refine ⟨?_, ?_, ?_⟩
              · intro n hn
                have hn2 : (copy_slice buf kv.2).1 = n := by
                  simpa using hn
                refine ⟨?_, by simpa using hc2, ?_⟩
                · rw [← hn2, hc1]
                  omega
                · rw [← hn2]
                  simpa using hc3
              · intro hnf
                exact absurd hnf (by simp)
              · intro hp
                exact absurd hp (by simp)
            · rw [if_neg hk]
              exact ih (x + 1)
        · rw [if_neg hh]
          exact ih (x + 1)

end Cdb

namespace Cdb

theorem byteAt_take {l : List Nat} {m i : Nat} (h : i < m) :
    byteAt (l.take m) i = byteAt l i := by
  unfold byteAt
  rw [List.getD_eq_getD_get?, List.getD_eq_getD_get?]
  rw [List.get?_take h]

theorem readU32_take {l : List Nat} {m off : Nat} (h : off + 4 ≤ m) :
    readU32 (l.take m) off = readU32 l off := by
  unfold readU32
  rw [byteAt_take (by omega), byteAt_take (by omega), byteAt_take (by omega),
    byteAt_take (by omega)]

theorem bucket_at_take (data : List Nat) (m idx : Nat) :
    bucket_at (data.take m) idx = bucket_at data idx ∨
      bucket_at (data.take m) idx = none := by
  unfold bucket_at
  by_cases h256 : idx < 256
  · rw [if_pos h256, if_pos h256]
    by_cases hin : 8 * idx + 8 ≤ (data.take m).length
    · have hm : 8 * idx + 8 ≤ m := by
        have := List.length_take m data
        omega
      have hd : 8 * idx + 8 ≤ data.length := by
        have := List.length_take m data
        omega
      rw [if_pos hin, if_pos hd]
      left
      rw [readU32_take (by omega), readU32_take (by omega)]
    · rw [if_neg hin]
      right
      rfl
  · rw [if_neg h256, if_neg h256]
    left
    rfl

theorem index_entry_at_take (data : List Nat) (m pos : Nat) :
    index_entry_at (data.take m) pos = index_entry_at data pos ∨
      index_entry_at (data.take m) pos = none := by
  unfold index_entry_at
  by_cases hlow : pos < 2048
  · rw [if_pos hlow, if_pos hlow]
    left
    rfl
  · rw [if_neg hlow, if_neg hlow]
    by_cases hin : pos + 8 ≤ (data.take m).length
    · have hm : pos + 8 ≤ m := by
        have := List.length_take m data
        omega
      have hd : pos + 8 ≤ data.length := by
        have := List.length_take m data
        omega
      rw [if_pos hin, if_pos hd]
      left
      rw [readU32_take (by omega), readU32_take (by omega)]
    · rw [if_neg hin]
      right
      rfl

theorem slice_take (l : List Nat) (m a n : Nat) (h : a + n ≤ m) :
    ((l.take m).drop a).take n = (l.drop a).take n := by
  rw [List.drop_take]
  rw [List.take_take]
  congr 1
  omega

theorem get_kv_ref_take (data : List Nat) (m : Nat) (e : IndexEntry) :
    get_kv_ref (data.take m) e = get_kv_ref data e ∨
      get_kv_ref (data.take m) e = none := by
  unfold get_kv_ref
  by_cases h1 : e.ptr + 8 ≤ (data.take m).length
  · have hm1 : e.ptr + 8 ≤ m := by
      have := List.length_take m data
      omega
    have hd1 : e.ptr + 8 ≤ data.length := by
      have := List.length_take m data
      omega
    rw [if_pos h1, if_pos hd1]
    rw [readU32_take (by omega), readU32_take (by omega)]
    by_cases h2 : e.ptr + 8 + readU32 data e.ptr ≤ (data.take m).length
    · have hm2 : e.ptr + 8 + readU32 data e.ptr ≤ m := by
        have := List.length_take m data
        omega
      have hd2 : e.ptr + 8 + readU32 data e.ptr ≤ data.length := by
        have := List.length_take m data
        omega
      rw [if_pos h2, if_pos hd2]
      by_cases h3 : e.ptr + 8 + readU32 data e.ptr + readU32 data (e.ptr + 4)
          ≤ (data.take m).length
      · have hm3 : e.ptr + 8 + readU32 data e.ptr + readU32 data (e.ptr + 4) ≤ m := by
          have := List.length_take m data
          omega
        have hd3 : e.ptr + 8 + readU32 data e.ptr + readU32 data (e.ptr + 4)
            ≤ data.length := by
          have := List.length_take m data
          omega
        rw [if_pos h3, if_pos hd3]
        left
        rw [slice_take data m (e.ptr + 8) (readU32 data e.ptr) (by omega)]
        rw [slice_take data m (e.ptr + 8 + readU32 data e.ptr)
          (readU32 data (e.ptr + 4)) (by omega)]
      · rw [if_neg h3]
        right
        rfl
    · rw [if_neg h2]
      right
      rfl
  · rw [if_neg h1]
    right
    rfl

theorem getLoop_step_zero (data key buf : List Nat) (h bptr nents slot x fuel : Nat)
    (e : IndexEntry)
    (hdec : index_entry_at data (bptr + 8 * ((x + slot) % nents)) = some e)
    (hz : e.ptr = 0) :
    getLoop data key buf h bptr nents slot x (fuel + 1) = (.notFound, buf) := by
  rw [getLoop_step data key buf h bptr nents slot x fuel e hdec, if_pos hz]

theorem getLoop_step_skip (data key buf : List Nat) (h bptr nents slot x fuel : Nat)
    (e : IndexEntry)
    (hdec : index_entry_at data (bptr + 8 * ((x + slot) % nents)) = some e)
    (hz : e.ptr ≠ 0) (hh : e.hash ≠ h) :
    getLoop data key buf h bptr nents slot x (fuel + 1)
      = getLoop data key buf h bptr nents slot (x + 1) fuel := by
  rw [getLoop_step data key buf h bptr nents slot x fuel e hdec, if_neg hz, if_neg hh]

theorem getLoop_step_kvnone (data key buf : List Nat) (h bptr nents slot x fuel : Nat)
    (e : IndexEntry)
    (hdec : index_entry_at data (bptr + 8 * ((x + slot) % nents)) = some e)
    (hz : e.ptr ≠ 0) (hh : e.hash = h) (hkv : get_kv_ref data e = none) :
    getLoop data key buf h bptr nents slot x (fuel + 1) = (.panicked, buf) := by
  rw [getLoop_step data key buf h bptr nents slot x fuel e hdec, if_neg hz, if_pos hh]
  simp only [hkv]

theorem getLoop_step_hit (data key buf : List Nat) (h bptr nents slot x fuel : Nat)
    (e : IndexEntry) (kv : List Nat × List Nat)
    (hdec : index_entry_at data (bptr + 8 * ((x + slot) % nents)) = some e)
    (hz : e.ptr ≠ 0) (hh : e.hash = h) (hkv : get_kv_ref data e = some kv)
    (hk : kv.1 = key) :
    getLoop data key buf h bptr nents slot x (fuel + 1)
      = (.found (copy_slice buf kv.2).1, (copy_slice buf kv.2).2) := by
  rw [getLoop_step data key buf h bptr nents slot x fuel e hdec, if_neg hz, if_pos hh]
  simp only [hkv]
  rw [if_pos hk]

theorem getLoop_step_miss (data key buf : List Nat) (h bptr nents slot x fuel : Nat)
    (e : IndexEntry) (kv : List Nat × List Nat)
    (hdec : index_entry_at data (bptr + 8 * ((x + slot) % nents)) = some e)
    (hz : e.ptr ≠ 0) (hh : e.hash = h) (hkv : get_kv_ref data e = some kv)
    (hk : kv.1 ≠ key) :
    getLoop data key buf h bptr nents slot x (fuel + 1)
      = getLoop data key buf h bptr nents slot (x + 1) fuel := by
  rw [getLoop_step data key buf h bptr nents slot x fuel e hdec, if_neg hz, if_pos hh]
  simp only [hkv]
  rw [if_neg hk]

theorem getLoop_take (data key buf : List Nat) (h bptr nents slot m : Nat) :
    ∀ fuel x,
      getLoop (data.take m) key buf h bptr nents slot x fuel
          = getLoop data key buf h bptr nents slot x fuel ∨
        (getLoop (data.take m) key buf h bptr nents slot x fuel).1 = .panicked := by
  intro fuel
  induction fuel with
  | zero => intro x; left; rfl
  | succ fuel ih =>
    intro x
    rcases index_entry_at_take data m (bptr + 8 * ((x + slot) % nents)) with heq | hnone
    · cases hie : index_entry_at data (bptr + 8 * ((x + slot) % nents)) with
      | none =>
        rw [getLoop_step_none _ _ _ _ _ _ _ _ _ (heq.trans hie),
          getLoop_step_none _ _ _ _ _ _ _ _ _ hie]
        left
        rfl
      | some e =>
        by_cases hz : e.ptr = 0
        · rw [getLoop_step_zero _ _ _ _ _ _ _ _ _ _ (heq.trans hie) hz,
            getLoop_step_zero _ _ _ _ _ _ _ _ _ _ hie hz]
          left
          rfl
        · by_cases hh : e.hash = h
          · rcases get_kv_ref_take data m e with hkeq | hknone
            · cases hkv : get_kv_ref data e with
              | none =>
                rw [getLoop_step_kvnone _ _ _ _ _ _ _ _ _ _ (heq.trans hie) hz hh
                    (hkeq.trans hkv),
                  getLoop_step_kvnone _ _ _ _ _ _ _ _ _ _ hie hz hh hkv]
                left
                rfl
              | some kv =>
                by_cases hk : kv.1 = key
                · rw [getLoop_step_hit _ _ _ _ _ _ _ _ _ _ _ (heq.trans hie) hz hh
                      (hkeq.trans hkv) hk,
                    getLoop_step_hit _ _ _ _ _ _ _ _ _ _ _ hie hz hh hkv hk]
                  left
                  rfl
                · rw [getLoop_step_miss _ _ _ _ _ _ _ _ _ _ _ (heq.trans hie) hz hh
                      (hkeq.trans hkv) hk,
                    getLoop_step_miss _ _ _ _ _ _ _ _ _ _ _ hie hz hh hkv hk]
                  exact ih (x + 1)
            · rw [getLoop_step_kvnone _ _ _ _ _ _ _ _ _ _ (heq.trans hie) hz hh hknone]
              right
              rfl
          · rw [getLoop_step_skip _ _ _ _ _ _ _ _ _ _ (heq.trans hie) hz hh,
              getLoop_step_skip _ _ _ _ _ _ _ _ _ _ hie hz hh]
            exact ih (x + 1)
    · rw [getLoop_step_none _ _ _ _ _ _ _ _ _ hnone]
      right
      rfl

theorem reader_get_eq_none (data key buf : List Nat)
    (hb : bucket_at data (hashTable (cdbHash key)) = none) :
    reader_get data key buf = (.panicked, buf) := by
  unfold reader_get
  simp only [hb]

theorem reader_get_eq_empty (data key buf : List Nat) (bkt : Bucket)
    (hb : bucket_at data (hashTable (cdbHash key)) = some bkt)
    (hz : bkt.num_ents = 0) :
    reader_get data key buf = (.notFound, buf) := by
  unfold reader_get
  simp only [hb]
  rw [if_pos hz]

theorem reader_get_eq_loop (data key buf : List Nat) (bkt : Bucket)
    (hb : bucket_at data (hashTable (cdbHash key)) = some bkt)
    (hz : bkt.num_ents ≠ 0) :
    reader_get data key buf = getLoop data key buf (cdbHash key) bkt.ptr
      bkt.num_ents (hashSlot (cdbHash key) bkt.num_ents) 0 bkt.num_ents := by
  unfold reader_get
  simp only [hb]
  rw [if_neg hz]

/-- C2 (amended, general form): reading a prefix-truncated file either
behaves exactly as on the original file or panics; there is no
`Corrupt` error in the code, so structural violations surface as
panics. -/
theorem reader_get_take (data key buf : List Nat) (m : Nat) :
    reader_get (data.take m) key buf = reader_get data key buf ∨
      (reader_get (data.take m) key buf).1 = .panicked := by
  rcases bucket_at_take data m (hashTable (cdbHash key)) with heq | hnone
  · cases hb : bucket_at data (hashTable (cdbHash key)) with
    | none =>
      rw [reader_get_eq_none _ _ _ (heq.trans hb), reader_get_eq_none _ _ _ hb]
      left
      rfl
    | some bkt =>
      by_cases hz : bkt.num_ents = 0
      · rw [reader_get_eq_empty _ _ _ _ (heq.trans hb) hz,
          reader_get_eq_empty _ _ _ _ hb hz]
        left
        rfl
      · rw [reader_get_eq_loop _ _ _ _ (heq.trans hb) hz,
          reader_get_eq_loop _ _ _ _ hb hz]
        exact getLoop_take data key buf (cdbHash key) bkt.ptr bkt.num_ents
          (hashSlot (cdbHash key) bkt.num_ents) m bkt.num_ents 0
  · rw [reader_get_eq_none _ _ _ hnone]
    right
    rfl

end Cdb

namespace Cdb

theorem reader_get_frame (data key buf : List Nat) :
    (∀ n, (reader_get data key buf).1 = .found n →
      n ≤ buf.length ∧
      (reader_get data key buf).2.length = buf.length ∧
      (reader_get data key buf).2.drop n = buf.drop n) ∧
      ((reader_get data key buf).1 = .notFound → (reader_get data key buf).2 = buf) ∧
      ((reader_get data key buf).1 = .panicked → (reader_get data key buf).2 = buf) := by
  cases hb : bucket_at data (hashTable (cdbHash key)) with
  | none =>
    rw [reader_get_eq_none _ _ _ hb]
    exact ⟨by simp, by simp, by simp⟩
  | some bkt =>
    by_cases hz : bkt.num_ents = 0
    · rw [reader_get_eq_empty _ _ _ _ hb hz]
      exact ⟨by simp, by simp, by simp⟩
    · rw [reader_get_eq_loop _ _ _ _ hb hz]
      exact getLoop_frame data key buf (cdbHash key) bkt.ptr bkt.num_ents
        (hashSlot (cdbHash key) bkt.num_ents) bkt.num_ents 0

/-- C9: frame property of `Reader::get` on the destination buffer: on
`Found n` only the first `n` bytes of `dest` are modified (its length
is preserved and `dest[n..]` keeps its prior contents); on `NotFound`
or a panic the buffer is returned entirely unchanged. -/
theorem claim_C9 (data key buf : List Nat) :
    (∀ n, (reader_get data key buf).1 = .found n →
      n ≤ buf.length ∧
      (reader_get data key buf).2.length = buf.length ∧
      (reader_get data key buf).2.drop n = buf.drop n) ∧
      ((reader_get data key buf).1 = .notFound → (reader_get data key buf).2 = buf) ∧
      ((reader_get data key buf).1 = .panicked → (reader_get data key buf).2 = buf) :=
  reader_get_frame data key buf

/-- Witness for C9 at a concrete lookup. -/
theorem claim_C9_witness :
    (reader_get [] [0] [1, 2]).1 = GetResult.panicked ∧
      (reader_get [] [0] [1, 2]).2 = [1, 2] :=
  ⟨by decide, (claim_C9 [] [0] [1, 2]).2.2 (by decide)⟩

/-- C2 (amended): on malformed input obtained by truncating a file,
`Reader::get` either behaves as on the original file or panics (an
out-of-range slice or the explicit `panic!` on a main-table position);
the code has no `Corrupt` error to surface. -/
theorem claim_C2 (data key buf : List Nat) (m : Nat) :
    reader_get (data.take m) key buf = reader_get data key buf ∨
      (reader_get (data.take m) key buf).1 = .panicked :=
  reader_get_take data key buf m

end Cdb

namespace Cdb

/-- All keys and values of the puts are byte strings. -/
def PutsOK (ps : List (List Nat × List Nat)) : Prop :=
  ∀ kv ∈ ps, (∀ x ∈ kv.1, x < 256) ∧ (∀ x ∈ kv.2, x < 256)

instance (ps : List (List Nat × List Nat)) : Decidable (PutsOK ps) := by
  unfold PutsOK
  infer_instance

theorem entsFrom_length (ps : List (List Nat × List Nat)) :
    ∀ base, (entsFrom base ps).length = ps.length := by
  induction ps with
  | nil => intro base; rfl
  | cons kv rest ih =>
    intro base
    show (entsFrom (base + (recBytes kv.1 kv.2).length) rest).length + 1 = rest.length + 1
    rw [ih]

theorem recsBytes_ge (ps : List (List Nat × List Nat)) :
    8 * ps.length ≤ (recsBytes ps).length := by
  induction ps with
  | nil => simp [recsBytes]
  | cons kv rest ih =>
    rw [show recsBytes (kv :: rest) = recBytes kv.1 kv.2 ++ recsBytes rest from by
      simp [recsBytes]]
    rw [List.length_append, recBytes_length, List.length_cons]
    omega

theorem sumTLB_succ (ps : List (List Nat × List Nat)) (b : Nat) :
    sumTLB ps (b + 1) = sumTLB ps b + tableLen (bucketOf b ps) := by
  unfold sumTLB
  rw [List.range_succ, List.map_append, List.sum_append]
  simp

theorem sumTLB_le (ps : List (List Nat × List Nat)) :
    ∀ b c, b ≤ c → sumTLB ps b ≤ sumTLB ps c := by
  intro b c
  induction c with
  | zero =>
    intro h
    have hb0 : b = 0 := by omega
    rw [hb0]
  | succ c2 ih =>
    intro h
    rcases Nat.eq_or_lt_of_le h with rfl | hlt
    · exact Nat.le_refl _
    · have := ih (by omega)
      rw [sumTLB_succ]
      omega

theorem sumTLB_split (ps : List (List Nat × List Nat)) (b : Nat) (hb : b < 256) :
    sumTLB ps b + tableLen (bucketOf b ps) ≤ sumTLB ps 256 := by
  have h1 : sumTLB ps b + tableLen (bucketOf b ps) = sumTLB ps (b + 1) :=
    (sumTLB_succ ps b).symm
  rw [h1]
  exact sumTLB_le ps (b + 1) 256 (by omega)

theorem nodup_keys_val (ps : List (List Nat × List Nat))
    (hnd : (ps.map Prod.fst).Nodup) :
    ∀ kv kv2, kv ∈ ps → kv2 ∈ ps → kv.1 = kv2.1 → kv = kv2 := by
  induction ps with
  | nil => intro kv kv2 h; simp at h
  | cons kv0 rest ih =>
    intro kv kv2 hkv hkv2 heq
    rw [List.map_cons, List.nodup_cons] at hnd
    rcases List.mem_cons.mp hkv with rfl | htail
    · rcases List.mem_cons.mp hkv2 with rfl | htail2
      · rfl
      · exact absurd (heq ▸ List.mem_map_of_mem Prod.fst htail2) hnd.1
    · rcases List.mem_cons.mp hkv2 with rfl | htail2
      · exact absurd (heq ▸ List.mem_map_of_mem Prod.fst htail) hnd.1
      · exact ih hnd.2 kv kv2 htail htail2 heq

theorem buildFile_ge_2048 (ps : List (List Nat × List Nat)) :
    2048 ≤ (buildFile ps).length := by
  rw [buildFile_length]
  omega

/-- Decoding bucket `b`'s primary entry as the `Bucket` structure. -/
theorem bucket_at_decode (ps : List (List Nat × List Nat))
    (hsz : (buildFile ps).length < U32) (b : Nat) (hb : b < 256) :
    bucket_at (buildFile ps) b
      = some ⟨tableOffset ps b, tableLen (bucketOf b ps)⟩ := by
  unfold bucket_at
  rw [if_pos hb]
  rw [if_pos (by have := buildFile_ge_2048 ps; omega)]
  obtain ⟨h1, h2⟩ := primary_decode ps b hb
  rw [h1, h2]
  have hoff : tableOffset ps b ≤ (buildFile ps).length := by
    rw [buildFile_length]
    unfold tableOffset
    have := sumTLB_split ps b hb
    omega
  rw [Nat.mod_eq_of_lt (by omega)]

/-- The pending-list length of bucket `b` is `1 +` the number of puts
whose primary index is `b`, and its table length is twice that. -/
theorem bucketOf_length (ps : List (List Nat × List Nat)) (b : Nat) :
    (bucketOf b ps).length
      = 1 + ((entsFrom 2048 ps).filter (fun e => hashTable e.hash == b)).length := by
  unfold bucketOf
  rw [List.length_cons]
  omega

theorem bucketOf_length_le (ps : List (List Nat × List Nat)) (b : Nat) :
    (bucketOf b ps).length ≤ 1 + ps.length := by
  rw [bucketOf_length]
  have h1 := List.length_filter_le (fun e => hashTable e.hash == b) (entsFrom 2048 ps)
  rw [entsFrom_length] at h1
  omega

theorem bucket_small (ps : List (List Nat × List Nat))
    (hsz : (buildFile ps).length < U32) (b : Nat) :
    2 * (bucketOf b ps).length < U32 := by
  have h1 := bucketOf_length_le ps b
  have h2 := recsBytes_ge ps
  have h3 := buildFile_length ps
  have h4 : (recsBytes ps).length < U32 := by omega
  have hU : U32 = 4294967296 := rfl
  rw [hU] at h4 ⊢
  omega

/-- Every occupied probed slot decodes to the record of some put. -/
theorem probed_entry_fact (ps : List (List Nat × List Nat))
    (hsz : (buildFile ps).length < U32) (b : Nat) (j : Nat)
    (hnz : ((ordOf ps b).getD j default).ptr ≠ 0) :
    ∃ kv2, kv2 ∈ ps ∧
      ((ordOf ps b).getD j default).hash = cdbHash kv2.1 ∧
      get_kv_ref (buildFile ps) ((ordOf ps b).getD j default) = some kv2 := by
  rcases buildTable_slot_mem (bucketOf b ps) j with hd | hm
  · rw [show buildTable (bucketOf b ps) = ordOf ps b from rfl] at hd
    rw [hd] at hnz
    simp [default] at hnz
  · rw [show buildTable (bucketOf b ps) = ordOf ps b from rfl] at hm
    rcases List.mem_cons.mp hm with hsent | hfil
    · rw [hsent] at hnz
      simp at hnz
    · have hent := List.mem_of_mem_filter hfil
      obtain ⟨A, B, kv2, hkv2, hsplit, hh, hp⟩ := entsFrom_mem_split ps 2048 _ hent
      obtain ⟨hkvref, hmod⟩ := record_decode ps hsz A B kv2.1 kv2.2 (by
        rw [hsplit])
      refine ⟨kv2, hkv2, hh, ?_⟩
      have he : (ordOf ps b).getD j default = ⟨cdbHash kv2.1, (2048 + A.length) % U32⟩ := by
        cases hgd : (ordOf ps b).getD j default with
        | mk hh2 pp2 =>
          rw [hgd] at hh hp
          simp at hh hp
          rw [hh, hp]
      rw [he]
      rw [show (kv2.1, kv2.2) = kv2 from rfl] at hkvref
      exact hkvref

end Cdb

namespace Cdb

/-- Master retrieval theorem: for distinct keys, looking up a stored key
returns its value truncated to the destination buffer, and the buffer
holds the copied prefix followed by its untouched tail. -/
theorem reader_get_found (ps : List (List Nat × List Nat)) (hok : PutsOK ps)
    (hnd : (ps.map Prod.fst).Nodup) (hsz : (buildFile ps).length < U32)
    (kv : List Nat × List Nat) (hmem : kv ∈ ps) (buf : List Nat) :
    reader_get (buildFile ps) kv.1 buf
      = (.found (min buf.length kv.2.length),
         kv.2.take (min buf.length kv.2.length) ++
           buf.drop (min buf.length kv.2.length)) := by
  have hb : hashTable (cdbHash kv.1) < 256 := hashTable_lt _
  have hsmall : 2 * (bucketOf (hashTable (cdbHash kv.1)) ps).length < U32 :=
    bucket_small ps hsz _
  have htlen1 : 1 ≤ (bucketOf (hashTable (cdbHash kv.1)) ps).length := by
    rw [bucketOf_length]
    omega
  have hn : tableLen (bucketOf (hashTable (cdbHash kv.1)) ps)
      = 2 * (bucketOf (hashTable (cdbHash kv.1)) ps).length := tableLen_eq _ hsmall
  have hnpos : 0 < tableLen (bucketOf (hashTable (cdbHash kv.1)) ps) := by omega
  have hbk := bucket_at_decode ps hsz _ hb
  rw [reader_get_eq_loop (buildFile ps) kv.1 buf _ hbk (by
    show tableLen (bucketOf (hashTable (cdbHash kv.1)) ps) ≠ 0
    omega)]
  obtain ⟨A, B, hsplit, hein⟩ := entsFrom_of_mem ps 2048 kv hmem
  obtain ⟨hkvref, hmod⟩ := record_decode ps hsz A B kv.1 kv.2 hsplit
  have hemem : (⟨cdbHash kv.1, (2048 + A.length) % U32⟩ : IndexEntry)
      ∈ bucketOf (hashTable (cdbHash kv.1)) ps := by
    apply List.mem_cons_of_mem
    apply List.mem_filter.mpr
    refine ⟨hein, by simp⟩
  have henz : ((⟨cdbHash kv.1, (2048 + A.length) % U32⟩ : IndexEntry)).ptr ≠ 0 := by
    show (2048 + A.length) % U32 ≠ 0
    rw [hmod]
    omega
  obtain ⟨hslotmem, hreach⟩ := buildTable_facts _ htlen1 hsmall
  obtain ⟨d, hd, hdeq, hdbefore⟩ := hreach _ hemem henz
  have hordlen : (buildTable (bucketOf (hashTable (cdbHash kv.1)) ps)).length
      = tableLen (bucketOf (hashTable (cdbHash kv.1)) ps) := buildTable_length _
  have hdec : ∀ j, j < tableLen (bucketOf (hashTable (cdbHash kv.1)) ps) →
      index_entry_at (buildFile ps) (tableOffset ps (hashTable (cdbHash kv.1)) + 8 * j)
        = some ((ordOf ps (hashTable (cdbHash kv.1))).getD j default) :=
    table_slot_decode ps _ hb
      (bucketOf_bounds ps (fun kv2 hkv2 => (hok kv2 hkv2).1) _)
  rw [hordlen] at hd hdeq hdbefore
  apply getLoop_found (buildFile ps) kv.1 buf (cdbHash kv.1)
    (tableOffset ps (hashTable (cdbHash kv.1)))
    (tableLen (bucketOf (hashTable (cdbHash kv.1)) ps))
    (hashSlot (cdbHash kv.1) (tableLen (bucketOf (hashTable (cdbHash kv.1)) ps)))
    (fun j => (ordOf ps (hashTable (cdbHash kv.1))).getD j default)
    hdec hnpos kv.2 _ 0 d hd
  · constructor
    · rw [Nat.zero_add]
      show ((ordOf ps _).getD _ default).ptr ≠ 0
      rw [show (ordOf ps (hashTable (cdbHash kv.1))) = buildTable _ from rfl]
      rw [hdeq]
      exact henz
    · constructor
      · rw [Nat.zero_add]
        show ((ordOf ps _).getD _ default).hash = cdbHash kv.1
        rw [show (ordOf ps (hashTable (cdbHash kv.1))) = buildTable _ from rfl]
        rw [hdeq]
      · rw [Nat.zero_add]
        show get_kv_ref (buildFile ps) ((ordOf ps _).getD _ default) = some (kv.1, kv.2)
        rw [show (ordOf ps (hashTable (cdbHash kv.1))) = buildTable _ from rfl]
        rw [hdeq]
        exact hkvref
  · intro d2 hd2
    have hbefore := hdbefore d2 hd2
    rw [Nat.zero_add]
    constructor
    · show ((ordOf ps _).getD _ default).ptr ≠ 0
      rw [show (ordOf ps (hashTable (cdbHash kv.1))) = buildTable _ from rfl]
      exact hbefore
    · intro hhash
      have hnz2 : ((ordOf ps (hashTable (cdbHash kv.1))).getD
          ((d2 + hashSlot (cdbHash kv.1)
            (tableLen (bucketOf (hashTable (cdbHash kv.1)) ps))) %
            tableLen (bucketOf (hashTable (cdbHash kv.1)) ps)) default).ptr ≠ 0 := by
        rw [show (ordOf ps (hashTable (cdbHash kv.1))) = buildTable _ from rfl]
        exact hbefore
      obtain ⟨kv2, hkv2mem, hkv2hash, hkv2ref⟩ := probed_entry_fact ps hsz _ _ hnz2
      refine ⟨kv2, hkv2ref, ?_⟩
      by_cases hkeq : kv2.1 = kv.1
      · right
        have : kv2 = kv := nodup_keys_val ps hnd kv2 kv hkv2mem hmem hkeq
        rw [this]
      · left
        exact hkeq

end Cdb

namespace Cdb

/-- Master absence theorem: looking up a key that was never put returns
`NotFound` (never a panic, never a hit), leaving the buffer unchanged. -/
theorem reader_get_absent (ps : List (List Nat × List Nat)) (hok : PutsOK ps)
    (hsz : (buildFile ps).length < U32) (key : List Nat)
    (hnot : key ∉ ps.map Prod.fst) (buf : List Nat) :
    reader_get (buildFile ps) key buf = (.notFound, buf) := by
  have hb : hashTable (cdbHash key) < 256 := hashTable_lt _
  have hsmall : 2 * (bucketOf (hashTable (cdbHash key)) ps).length < U32 :=
    bucket_small ps hsz _
  have hn : tableLen (bucketOf (hashTable (cdbHash key)) ps)
      = 2 * (bucketOf (hashTable (cdbHash key)) ps).length := tableLen_eq _ hsmall
  have htlen1 : 1 ≤ (bucketOf (hashTable (cdbHash key)) ps).length := by
    rw [bucketOf_length]
    omega
  have hnpos : 0 < tableLen (bucketOf (hashTable (cdbHash key)) ps) := by omega
  have hbk := bucket_at_decode ps hsz _ hb
  rw [reader_get_eq_loop (buildFile ps) key buf _ hbk (by
    show tableLen (bucketOf (hashTable (cdbHash key)) ps) ≠ 0
    omega)]
  have hdec : ∀ j, j < tableLen (bucketOf (hashTable (cdbHash key)) ps) →
      index_entry_at (buildFile ps) (tableOffset ps (hashTable (cdbHash key)) + 8 * j)
        = some ((ordOf ps (hashTable (cdbHash key))).getD j default) :=
    table_slot_decode ps _ hb
      (bucketOf_bounds ps (fun kv2 hkv2 => (hok kv2 hkv2).1) _)
  apply getLoop_absent (buildFile ps) key buf (cdbHash key)
    (tableOffset ps (hashTable (cdbHash key)))
    (tableLen (bucketOf (hashTable (cdbHash key)) ps))
    (hashSlot (cdbHash key) (tableLen (bucketOf (hashTable (cdbHash key)) ps)))
    (fun j => (ordOf ps (hashTable (cdbHash key))).getD j default)
    hdec hnpos _ 0
  intro d _
  rw [Nat.zero_add]
  by_cases hz : ((ordOf ps (hashTable (cdbHash key))).getD
      ((d + hashSlot (cdbHash key)
        (tableLen (bucketOf (hashTable (cdbHash key)) ps))) %
        tableLen (bucketOf (hashTable (cdbHash key)) ps)) default).ptr = 0
  · left
    exact hz
  · right
    intro _
    obtain ⟨kv2, hkv2mem, _, hkv2ref⟩ := probed_entry_fact ps hsz _ _ hz
    refine ⟨kv2, hkv2ref, ?_⟩
    intro hcontra
    exact hnot (hcontra ▸ List.mem_map_of_mem Prod.fst hkv2mem)

end Cdb

namespace Cdb

set_option maxRecDepth 4000

/-- C1 (amended): for every sequence of pairs with pairwise-distinct
keys, byte-valued keys and values, and a finalised file within the
format's 32-bit offset range, `Reader::get(k, buf)` with
`|buf| ≥ |v|` returns `Found(|v|)` and the first `|v|` bytes of the
buffer equal `v`. -/
theorem claim_C1 (ps : List (List Nat × List Nat)) (hok : PutsOK ps)
    (hnd : (ps.map Prod.fst).Nodup) (hsz : (buildFile ps).length < U32)
    (kv : List Nat × List Nat) (hmem : kv ∈ ps) (buf : List Nat)
    (hbuf : kv.2.length ≤ buf.length) :
    (reader_get (buildFile ps) kv.1 buf).1 = .found kv.2.length ∧
      ((reader_get (buildFile ps) kv.1 buf).2).take kv.2.length = kv.2 := by
  have h := reader_get_found ps hok hnd hsz kv hmem buf
  have hmin : min buf.length kv.2.length = kv.2.length := by omega
  rw [h, hmin]
  constructor
  · rfl
  · show (kv.2.take kv.2.length ++ buf.drop kv.2.length).take kv.2.length = kv.2
    rw [List.take_length]
    have := List.take_left kv.2 (buf.drop kv.2.length)
    simpa using this

/-- Witness for C1: one pair, a roomy buffer. -/
theorem claim_C1_witness :
    (reader_get (buildFile [([97], [120])]) [97] [0, 0]).1 = GetResult.found 1 ∧
      ((reader_get (buildFile [([97], [120])]) [97] [0, 0]).2).take 1 = [120] :=
  claim_C1 [([97], [120])] (by decide) (by decide)
    (by rw [buildFile_length]; decide) ([97], [120]) (by decide) [0, 0] (by decide)

/-- C7: for every finalised file and every key not among those put,
`Reader::get` returns `NotFound` with the buffer unchanged; the
`ptr == 0` early exit never hides a stored key. -/
theorem claim_C7 (ps : List (List Nat × List Nat)) (hok : PutsOK ps)
    (hsz : (buildFile ps).length < U32) (key : List Nat)
    (hnot : key ∉ ps.map Prod.fst) (buf : List Nat) :
    reader_get (buildFile ps) key buf = (.notFound, buf) :=
  reader_get_absent ps hok hsz key hnot buf

/-- Witness for C7: a missing key on a one-record file. -/
theorem claim_C7_witness :
    reader_get (buildFile [([97], [120])]) [98] [0, 0]
      = (GetResult.notFound, [0, 0]) :=
  claim_C7 [([97], [120])] (by decide) (by rw [buildFile_length]; decide)
    [98] (by decide) [0, 0]

/-- C8 (amended): for distinct keys within the 32-bit format range, a
lookup into a buffer shorter than the value returns `Found(|buf|)` and
fills the buffer with exactly the first `|buf|` bytes of the value. -/
theorem claim_C8 (ps : List (List Nat × List Nat)) (hok : PutsOK ps)
    (hnd : (ps.map Prod.fst).Nodup) (hsz : (buildFile ps).length < U32)
    (kv : List Nat × List Nat) (hmem : kv ∈ ps) (buf : List Nat)
    (hbuf : buf.length < kv.2.length) :
    (reader_get (buildFile ps) kv.1 buf).1 = .found buf.length ∧
      (reader_get (buildFile ps) kv.1 buf).2 = kv.2.take buf.length := by
  have h := reader_get_found ps hok hnd hsz kv hmem buf
  have hmin : min buf.length kv.2.length = buf.length := by omega
  rw [h, hmin]
  constructor
  · rfl
  · show kv.2.take buf.length ++ buf.drop buf.length = kv.2.take buf.length
    rw [List.drop_length, List.append_nil]

/-- Witness for C8: a two-byte value read into a one-byte buffer. -/
theorem claim_C8_witness :
    (reader_get (buildFile [([97], [120, 121])]) [97] [0]).1 = GetResult.found 1 ∧
      (reader_get (buildFile [([97], [120, 121])]) [97] [0]).2 = [120] :=
  claim_C8 [([97], [120, 121])] (by decide) (by decide)
    (by rw [buildFile_length]; decide) ([97], [120, 121]) (by decide) [0] (by decide)

end Cdb

namespace Cdb

set_option maxRecDepth 4000

/-- Number of puts whose primary index is `b`. -/
def bucketCount (ps : List (List Nat × List Nat)) (b : Nat) : Nat :=
  ((entsFrom 2048 ps).filter (fun e => hashTable e.hash == b)).length

theorem num_ents_decode (ps : List (List Nat × List Nat))
    (hsz : (buildFile ps).length < U32) (b : Nat) (hb : b < 256) :
    readU32 (buildFile ps) (8 * b + 4) = 2 * bucketCount ps b + 2 := by
  rw [(primary_decode ps b hb).2, tableLen_eq _ (bucket_small ps hsz b), bucketOf_length]
  unfold bucketCount
  omega

theorem ptr_decode (ps : List (List Nat × List Nat))
    (hsz : (buildFile ps).length < U32) (b : Nat) (hb : b < 256) :
    readU32 (buildFile ps) (8 * b) = tableOffset ps b := by
  rw [(primary_decode ps b hb).1]
  have hoff : tableOffset ps b ≤ (buildFile ps).length := by
    rw [buildFile_length]
    unfold tableOffset
    have := sumTLB_split ps b hb
    omega
  exact Nat.mod_eq_of_lt (by omega)

/-- C3 (amended): in every finalised file within the 32-bit format
range, each bucket's `num_ents` is even and equals `2 × (number of puts
in the bucket) + 2` — two more than twice the real entries, because of
the sentinel entry every bucket list is seeded with. -/
theorem claim_C3 (ps : List (List Nat × List Nat))
    (hsz : (buildFile ps).length < U32) (b : Nat) (hb : b < 256) :
    readU32 (buildFile ps) (8 * b + 4) = 2 * bucketCount ps b + 2 ∧
      2 ∣ readU32 (buildFile ps) (8 * b + 4) := by
  have h := num_ents_decode ps hsz b hb
  exact ⟨h, by rw [h]; omega⟩

/-- Witness for C3 on a one-record file at the record's bucket. -/
theorem claim_C3_witness :
    readU32 (buildFile [([97], [120])]) (8 * 196 + 4)
        = 2 * bucketCount [([97], [120])] 196 + 2 ∧
      2 ∣ readU32 (buildFile [([97], [120])]) (8 * 196 + 4) :=
  claim_C3 [([97], [120])] (by rw [buildFile_length]; decide) 196 (by decide)

/-- C3 counterexample: with one put in bucket 196, the written
`num_ents` is 4 although exactly one real (non-sentinel) entry is
placed in that bucket's table, so `num_ents ≠ 2 × (real entries)`. -/
theorem claim_C3_counterexample :
    readU32 (buildFile [([97], [120])]) (8 * 196 + 4) = 4 ∧
      nzCount (ordOf [([97], [120])] 196) = 1 ∧ (4 : Nat) ≠ 2 * 1 := by
  refine ⟨?_, by decide, by decide⟩
  have h := num_ents_decode [([97], [120])] (by rw [buildFile_length]; decide) 196 (by decide)
  rw [h]
  rw [show bucketCount [([97], [120])] 196 = 1 from by decide]

/-- C4 (amended): a bucket with no keys still gets a secondary table:
`num_ents = 2`, the primary entry points at a two-slot table of
sentinels at the bucket's table offset — not the zero-zero entry the
claim describes. -/
theorem claim_C4 (ps : List (List Nat × List Nat))
    (hsz : (buildFile ps).length < U32) (b : Nat) (hb : b < 256)
    (hempty : bucketCount ps b = 0) :
    readU32 (buildFile ps) (8 * b) = tableOffset ps b ∧
      readU32 (buildFile ps) (8 * b + 4) = 2 ∧
      index_entry_at (buildFile ps) (tableOffset ps b) = some ⟨0, 0⟩ ∧
      index_entry_at (buildFile ps) (tableOffset ps b + 8) = some ⟨0, 0⟩ := by
  have hbucket : bucketOf b ps = [⟨0, 0⟩] := by
    unfold bucketOf
    unfold bucketCount at hempty
    rw [List.length_eq_zero] at hempty
    rw [hempty]
  have hbnd : ∀ e ∈ bucketOf b ps, e.hash < U32 ∧ e.ptr < U32 := by
    rw [hbucket]
    intro e he
    rw [List.mem_singleton.mp he]
    exact ⟨by decide, by decide⟩
  have htl : tableLen (bucketOf b ps) = 2 := by
    rw [hbucket]
    decide
  have hord : ordOf ps b = [⟨0, 0⟩, ⟨0, 0⟩] := by
    unfold ordOf
    rw [hbucket]
    decide
  refine ⟨ptr_decode ps hsz b hb, ?_, ?_, ?_⟩
  · rw [num_ents_decode ps hsz b hb, hempty]
  · have h0 := table_slot_decode ps b hb hbnd 0 (by omega)
    rw [Nat.mul_zero, Nat.add_zero] at h0
    rw [h0, hord]
    rfl
  · have h1 := table_slot_decode ps b hb hbnd 1 (by omega)
    rw [Nat.mul_one] at h1
    rw [h1, hord]
    rfl

/-- Witness for C4: bucket 0 of a one-record file holds no key. -/
theorem claim_C4_witness :
    readU32 (buildFile [([97], [120])]) (8 * 0) = tableOffset [([97], [120])] 0 ∧
      readU32 (buildFile [([97], [120])]) (8 * 0 + 4) = 2 ∧
      index_entry_at (buildFile [([97], [120])]) (tableOffset [([97], [120])] 0)
        = some ⟨0, 0⟩ ∧
      index_entry_at (buildFile [([97], [120])]) (tableOffset [([97], [120])] 0 + 8)
        = some ⟨0, 0⟩ :=
  claim_C4 [([97], [120])] (by rw [buildFile_length]; decide) 0 (by decide) (by decide)

/-- C4 counterexample: with no puts at all, bucket 0's primary entry is
`(2048, 2)`, not the zero-zero entry the claim requires. -/
theorem claim_C4_counterexample :
    readU32 (buildFile []) 0 = 2048 ∧ readU32 (buildFile []) 4 = 2 ∧
      ¬ (readU32 (buildFile []) 0 = 0 ∧ readU32 (buildFile []) 4 = 0) := by
  have hsz0 : (buildFile ([] : List (List Nat × List Nat))).length < U32 := by
    rw [buildFile_length]
    decide
  have h1 := ptr_decode [] hsz0 0 (by decide)
  have h2 := num_ents_decode [] hsz0 0 (by decide)
  rw [Nat.mul_zero] at h1 h2
  rw [show (0 + 4 : Nat) = 4 from rfl] at h2
  have hoff : tableOffset ([] : List (List Nat × List Nat)) 0 = 2048 := by decide
  have hcnt : bucketCount ([] : List (List Nat × List Nat)) 0 = 0 := by decide
  rw [hoff] at h1
  rw [hcnt] at h2
  refine ⟨h1, by rw [h2], ?_⟩
  intro hcontra
  rw [h1] at hcontra
  exact absurd hcontra.1 (by decide)

/-- C10 (amended): every bucket list is non-empty from construction
onward, so the table length `2·len` (a `u32` cast) is at least 2 — and
the slot modulus non-zero — whenever the list holds fewer than `2^31`
entries (always true for files within the 32-bit offset format). -/
theorem claim_C10 (ps : List (List Nat × List Nat)) (b : Nat) (hb : b < 256) :
    0 < ((writerPuts ps).index.getD b []).length ∧
      (((writerPuts ps).index.getD b []).length < 2147483648 →
        2 ≤ tableLen ((writerPuts ps).index.getD b [])) := by
  have hgd := (writerPuts_spec ps).2.2 b hb
  rw [hgd]
  have hlen1 : 1 ≤ (bucketOf b ps).length := by
    rw [bucketOf_length]
    omega
  constructor
  · omega
  · intro hlt
    rw [tableLen_eq _ (by
      show 2 * (bucketOf b ps).length < U32
      have hU : U32 = 4294967296 := rfl
      rw [hU]
      omega)]
    omega

/-- Witness for C10 with no puts at all. -/
theorem claim_C10_witness :
    ((writerPuts []).index.getD 0 []).length < 2147483648 ∧
      2 ≤ tableLen ((writerPuts []).index.getD 0 []) :=
  ⟨by decide, (claim_C10 [] 0 (by decide)).2 (by decide)⟩

theorem entsFrom_replicate_nil_hash (N : Nat) :
    ∀ base e, e ∈ entsFrom base (List.replicate N (([] : List Nat), ([] : List Nat))) →
      e.hash = cdbHash [] := by
  induction N with
  | zero => intro base e he; simp [entsFrom] at he
  | succ N ih =>
    intro base e he
    rw [List.replicate_succ] at he
    rw [show entsFrom base ((([] : List Nat), ([] : List Nat)) ::
        List.replicate N (([] : List Nat), ([] : List Nat)))
      = ⟨cdbHash [], base % U32⟩ ::
        entsFrom (base + (recBytes [] []).length)
          (List.replicate N (([] : List Nat), ([] : List Nat))) from rfl] at he
    rcases List.mem_cons.mp he with rfl | htail
    · rfl
    · exact ih _ e htail

/-- C10 counterexample: after `2^31 - 1` puts of the empty key (all
landing in bucket 5), the `u32` cast `(tbl.len() << 1) as u32` wraps to
zero, so the table length is 0 — not "always at least 2" — and the slot
modulus `% length` is a division by zero. -/
theorem claim_C10_counterexample :
    tableLen ((writerPuts (List.replicate 2147483647 (([] : List Nat),
        ([] : List Nat)))).index.getD 5 []) = 0 ∧
      ¬ (2 ≤ tableLen ((writerPuts (List.replicate 2147483647 (([] : List Nat),
        ([] : List Nat)))).index.getD 5 [])) := by
  have hgd := (writerPuts_spec (List.replicate 2147483647
    (([] : List Nat), ([] : List Nat)))).2.2 5 (by omega)
  rw [hgd]
  have hfil : ((entsFrom 2048 (List.replicate 2147483647
      (([] : List Nat), ([] : List Nat)))).filter
        (fun e => hashTable e.hash == 5)).length = 2147483647 := by
    rw [List.filter_eq_self.mpr, entsFrom_length]
    · rw [List.length_replicate]
    · intro e he
      rw [entsFrom_replicate_nil_hash 2147483647 2048 e he]
      decide
  have hlen : (bucketOf 5 (List.replicate 2147483647
      (([] : List Nat), ([] : List Nat)))).length = 2147483648 := by
    rw [bucketOf_length, hfil]
  rw [tableLen_def, hlen]
  refine ⟨by decide, by decide⟩

end Cdb

namespace Cdb

set_option maxRecDepth 4000

/-- If the very first probed slot of the key's bucket holds an entry
whose record is `(key, v)`, the lookup returns `v` truncated to the
buffer (used to evaluate duplicate-key files, where the probing order
decides which record wins). -/
theorem reader_first_probe_found (ps : List (List Nat × List Nat))
    (hsz : (buildFile ps).length < U32) (key v buf : List Nat)
    (hbnd : ∀ e ∈ bucketOf (hashTable (cdbHash key)) ps, e.hash < U32 ∧ e.ptr < U32)
    (hnz : tableLen (bucketOf (hashTable (cdbHash key)) ps) ≠ 0)
    (e : IndexEntry)
    (he : (ordOf ps (hashTable (cdbHash key))).getD
        ((0 + 0 + hashSlot (cdbHash key)
          (tableLen (bucketOf (hashTable (cdbHash key)) ps))) %
          tableLen (bucketOf (hashTable (cdbHash key)) ps)) default = e)
    (hptr : e.ptr ≠ 0) (hhash : e.hash = cdbHash key)
    (hkv : get_kv_ref (buildFile ps) e = some (key, v)) :
    reader_get (buildFile ps) key buf
      = (.found (min buf.length v.length),
         v.take (min buf.length v.length) ++ buf.drop (min buf.length v.length)) := by
  have hb : hashTable (cdbHash key) < 256 := hashTable_lt _
  have hbk := bucket_at_decode ps hsz _ hb
  rw [reader_get_eq_loop (buildFile ps) key buf _ hbk hnz]
  have hdec : ∀ j, j < tableLen (bucketOf (hashTable (cdbHash key)) ps) →
      index_entry_at (buildFile ps) (tableOffset ps (hashTable (cdbHash key)) + 8 * j)
        = some ((ordOf ps (hashTable (cdbHash key))).getD j default) :=
    table_slot_decode ps _ hb hbnd
  apply getLoop_found (buildFile ps) key buf (cdbHash key)
    (tableOffset ps (hashTable (cdbHash key)))
    (tableLen (bucketOf (hashTable (cdbHash key)) ps))
    (hashSlot (cdbHash key) (tableLen (bucketOf (hashTable (cdbHash key)) ps)))
    (fun j => (ordOf ps (hashTable (cdbHash key))).getD j default)
    hdec (by omega) v (tableLen (bucketOf (hashTable (cdbHash key)) ps)) 0 0 (by omega)
  · refine ⟨?_, ?_, ?_⟩
    · show ((ordOf ps (hashTable (cdbHash key))).getD _ default).ptr ≠ 0
      rw [he]
      exact hptr
    · show ((ordOf ps (hashTable (cdbHash key))).getD _ default).hash = cdbHash key
      rw [he]
      exact hhash
    · show get_kv_ref (buildFile ps)
        ((ordOf ps (hashTable (cdbHash key))).getD _ default) = some (key, v)
      rw [he]
      exact hkv
  · intro d2 hd2
    omega

end Cdb

namespace Cdb

set_option maxRecDepth 4000

/-- The winning record for key `"a"` in the duplicate-key file
`[("a","x"), ("a","yz")]`: probing finds the first put's record. -/
theorem dup_key_lookup :
    ∀ buf, reader_get (buildFile [([97], [120]), ([97], [121, 122])]) [97] buf
      = (.found (min buf.length 1),
         [120].take (min buf.length 1) ++ buf.drop (min buf.length 1)) := by
  intro buf
  have hsz : (buildFile [([97], [120]), ([97], [121, 122])]).length < U32 := by
    rw [buildFile_length]
    decide
  have hsplit : recsBytes [([97], [120]), ([97], [121, 122])]
      = [] ++ recBytes [97] [120] ++ recBytes [97] [121, 122] := by decide
  obtain ⟨hkv, _⟩ := record_decode [([97], [120]), ([97], [121, 122])] hsz
    [] (recBytes [97] [121, 122]) [97] [120] hsplit
  have hent : (⟨cdbHash [97], (2048 + ([] : List Nat).length) % U32⟩ : IndexEntry)
      = ⟨177604, 2048⟩ := by decide
  rw [hent] at hkv
  exact reader_first_probe_found [([97], [120]), ([97], [121, 122])] hsz
    [97] [120] buf
    (bucketOf_bounds _ (by decide) _)
    (by decide) ⟨177604, 2048⟩ (by decide) (by decide) (by decide) hkv

/-- C1 counterexample: the pairs `("a","x")` and `("a","yz")` are
distinct, yet looking up `"a"` with a roomy buffer returns
`Found(1)` / `"x"`, not `Found(2)` with the buffer starting `"yz"` as
the claim requires for the pair `("a","yz")`. -/
theorem claim_C1_counterexample :
    reader_get (buildFile [([97], [120]), ([97], [121, 122])]) [97] [0, 0]
        = (.found 1, [120, 0]) ∧
      ¬ ((reader_get (buildFile [([97], [120]), ([97], [121, 122])]) [97] [0, 0]).1
            = .found 2 ∧
          ((reader_get (buildFile [([97], [120]), ([97], [121, 122])]) [97]
            [0, 0]).2).take 2 = [121, 122]) := by
  have h := dup_key_lookup [0, 0]
  rw [h]
  exact ⟨by decide, by decide⟩

/-- C8 counterexample: for the stored pair `("a","yz")` and a one-byte
buffer, the lookup returns `Found(1)` but the buffer holds `"x"` (the
other record's value), not the first byte of `"yz"`. -/
theorem claim_C8_counterexample :
    reader_get (buildFile [([97], [120]), ([97], [121, 122])]) [97] [0]
        = (.found 1, [120]) ∧
      (reader_get (buildFile [([97], [120]), ([97], [121, 122])]) [97] [0]).2
        ≠ [121] := by
  have h := dup_key_lookup [0]
  rw [h]
  exact ⟨by decide, by decide⟩

end Cdb

namespace Cdb

set_option maxRecDepth 4000

/-- C2 counterexample: truncating the well-formed one-record file by one
byte makes the lookup of key `0x5A` (primary index 255, preferred slot
1 — the slot torn by the truncation) panic: the 8-byte slot read runs
past the end of the buffer.  The claim says such a lookup returns a
`Corrupt` error or `NotFound` and never panics. -/
theorem claim_C2_counterexample :
    (reader_get ((buildFile [([97], [120])]).take
        ((buildFile [([97], [120])]).length - 1)) [90] []).1
      = GetResult.panicked := by
  have hsz : (buildFile [([97], [120])]).length < U32 := by
    rw [buildFile_length]
    decide
  have hlen : (buildFile [([97], [120])]).length = 6170 := by
    rw [buildFile_length]
    decide
  rw [hlen]
  rw [show (6170 - 1 : Nat) = 6169 from rfl]
  have hT : ((buildFile [([97], [120])]).take 6169).length = 6169 := by
    rw [List.length_take, hlen]
    decide
  have hptr255 : readU32 (buildFile [([97], [120])]) (8 * 255) = 6154 := by
    rw [ptr_decode _ hsz 255 (by decide)]
    decide
  have hne255 : readU32 (buildFile [([97], [120])]) (8 * 255 + 4) = 2 := by
    rw [num_ents_decode _ hsz 255 (by decide)]
    decide
  have hbat : bucket_at ((buildFile [([97], [120])]).take 6169) 255
      = some ⟨6154, 2⟩ := by
    unfold bucket_at
    rw [if_pos (by decide : (255 : Nat) < 256)]
    rw [if_pos (by rw [hT]; decide)]
    rw [readU32_take (by decide : 8 * 255 + 4 ≤ 6169),
      readU32_take (by decide : 8 * 255 + 4 + 4 ≤ 6169)]
    rw [hptr255, hne255]
  have h255 : hashTable (cdbHash [90]) = 255 := by decide
  have hbat2 : bucket_at ((buildFile [([97], [120])]).take 6169)
      (hashTable (cdbHash [90])) = some ⟨6154, 2⟩ := by
    rw [h255]
    exact hbat
  have hie : index_entry_at ((buildFile [([97], [120])]).take 6169)
      (6154 + 8 * ((0 + hashSlot (cdbHash [90]) 2) % 2)) = none := by
    rw [show (0 + hashSlot (cdbHash [90]) 2) % 2 = 1 from by decide]
    unfold index_entry_at
    rw [if_neg (by decide : ¬ (6154 + 8 * 1 < 2048))]
    rw [if_neg (by rw [hT]; decide)]
  have hstep : getLoop ((buildFile [([97], [120])]).take 6169) [90] []
      (cdbHash [90]) 6154 2 (hashSlot (cdbHash [90]) 2) 0 2 = (.panicked, []) :=
    getLoop_step_none _ _ _ _ _ _ _ _ 1 hie
  have hfinal : reader_get ((buildFile [([97], [120])]).take 6169) [90] []
      = (.panicked, []) := by
    rw [reader_get_eq_loop _ _ _ ⟨6154, 2⟩ hbat2 (by decide)]
    exact hstep
  rw [hfinal]

end Cdb
